import Mathlib

/-!
Verification development for the Conduit core library.

This file gives a shallow embedding in Lean 4 of the five C components in
`Sources/ConduitCore/src` — the line buffer, the SSE parser, the JSON
repairer, the JSON completer and the vector kernels — and proves or
refutes the testable properties stated for them.

Modelling conventions:
  * C bytes are modelled as `Char` values (all concrete test inputs are
    ASCII, and every comparison performed by the C code is an equality
    test against a fixed byte, which transports verbatim).
  * C `int` arithmetic is modelled by `Int` together with an explicit
    two's-complement wrap `wrap32` applied at each arithmetic step, so
    that overflow behaviour is visible in the model.
  * Heap allocation always succeeds in the model (`realloc` failure is
    out of scope; the claims under study quantify over successful runs).
  * Output buffers are modelled functionally: an operation returns the
    list of bytes it wrote together with its return value, and buffer
    capacities are threaded as `Nat` arguments with the same guard
    expressions as the C code.
  * The mutually recursive JSON completer is given an explicit fuel
    argument; the top-level entry point supplies fuel that dominates the
    C call depth, and the theorems below are fuel-generic where they
    quantify over all inputs.
-/

namespace Conduit

/-! ## Line buffer (`conduit_line_buffer.c`)

The C struct holds a heap block `data`, a `capacity`, and two offsets
`read_pos ≤ write_pos`.  We model the initialised prefix `data[0 .. write_pos)`
as a `List Char` (so `write_pos = data.length`) together with `read_pos`
and `capacity`. -/

structure LineBuffer where
  data : List Char
  read_pos : Nat
  capacity : Nat
deriving Repr, DecidableEq

/-- `conduit_line_buffer_create`: initial capacity is at least 256. -/
def conduit_line_buffer_create (initial_capacity : Nat) : LineBuffer :=
  { data := [], read_pos := 0,
    capacity := if initial_capacity < 256 then 256 else initial_capacity }

/-- `maybe_compact`: move pending bytes to offset 0 once `read_pos`
passes half the capacity. -/
def maybe_compact (buf : LineBuffer) : LineBuffer :=
  if buf.read_pos > buf.capacity / 2 ∧ buf.read_pos > 0 then
    { data := buf.data.drop buf.read_pos, read_pos := 0, capacity := buf.capacity }
  else buf

/-- `conduit_line_buffer_append` (allocation always succeeds in the model). -/
def conduit_line_buffer_append (buf : LineBuffer) (chunk : List Char) : LineBuffer :=
  if chunk.length = 0 then buf
  else
    let needed := buf.data.length + chunk.length
    let b1 := if needed > buf.capacity then maybe_compact buf else buf
    let needed1 := b1.data.length + chunk.length
    let b2 :=
      if needed1 > b1.capacity then
        { b1 with capacity := max (b1.capacity * 2) needed1 }
      else b1
    { b2 with data := b2.data ++ chunk }

/-- The pending region `data[read_pos .. write_pos)`. -/
def pendContent (buf : LineBuffer) : List Char :=
  buf.data.drop buf.read_pos

/-- `conduit_line_buffer_pending`. -/
def conduit_line_buffer_pending (buf : LineBuffer) : Nat :=
  buf.data.length - buf.read_pos

/-- `memchr` over the pending region: index of the first occurrence of `c`. -/
def memchrIdx (l : List Char) (c : Char) : Option Nat :=
  match l with
  | [] => none
  | x :: rest => if x = c then some 0 else (memchrIdx rest c).map (· + 1)

/-- The earliest of the LF and CR hits, as computed by the C code from
the two `memchr` results. -/
def earliestNewline (pending : List Char) : Option Nat :=
  match memchrIdx pending '\n', memchrIdx pending '\r' with
  | some i, some j => some (min i j)
  | some i, none => some i
  | none, some j => some j
  | none, none => none

/-- Bytes consumed by a successful extraction whose delimiter sits at
index `i` of the pending region: the line, the delimiter, and a `\n`
directly following a `\r` (CRLF collapse). -/
def consumeCount (pending : List Char) (i : Nat) : Nat :=
  if pending.get? i = some '\r' ∧ pending.get? (i + 1) = some '\n' then i + 2
  else i + 1

/-- `conduit_line_buffer_next_line`.  Returns the C result flag, the bytes
written into `line_out` (the line followed by the NUL terminator), and the
new buffer state. -/
def conduit_line_buffer_next_line (buf : LineBuffer) (line_out_capacity : Nat) :
    Bool × List Char × LineBuffer :=
  let pending := pendContent buf
  if pending.length = 0 then (false, [], buf)
  else
    match earliestNewline pending with
    | none => (false, [], buf)
    | some i =>
      if i ≥ line_out_capacity then (false, [], buf)
      else
        let line := pending.take i
        let consume := consumeCount pending i
        let buf' := maybe_compact { buf with read_pos := buf.read_pos + consume }
        (true, line ++ [Char.ofNat 0], buf')

/-! ### Reference line splitting (from the spec)

Splitting a byte sequence on LF / CR / CRLF with CRLF atomic; a trailing
segment with no delimiter is not a line. -/

/-- Modelled from the spec: split on `\n`, `\r`, `\r\n` (CRLF atomic),
accumulating the current line in `acc`. -/
def splitLinesGo (acc : List Char) : List Char → List (List Char)
  | [] => []
  | [c] =>
    if c = '\n' ∨ c = '\r' then [acc] else []
  | c :: d :: rest =>
    if c = '\n' then acc :: splitLinesGo [] (d :: rest)
    else if c = '\r' then
      if d = '\n' then acc :: splitLinesGo [] rest
      else acc :: splitLinesGo [] (d :: rest)
    else splitLinesGo (acc ++ [c]) (d :: rest)

/-- Modelled from the spec: the sequence of complete lines of `l`. -/
def splitLines (l : List Char) : List (List Char) :=
  splitLinesGo [] l

/-! ### Interleaved runs of the line buffer -/

/-- One API call in an interleaving: an `append` of a chunk or a
`next_line` with a given output capacity. -/
inductive LBOp where
  | app (chunk : List Char)
  | next (cap : Nat)
deriving Repr, DecidableEq

/-- Accumulated trace of a run: buffer state, lines returned so far,
total bytes appended, total bytes consumed (line bytes plus delimiters). -/
structure LBTrace where
  buf : LineBuffer
  lines : List (List Char)
  appended : Nat
  consumed : Nat
deriving Repr, DecidableEq

def lbStep (t : LBTrace) (op : LBOp) : LBTrace :=
  match op with
  | .app chunk =>
    { t with buf := conduit_line_buffer_append t.buf chunk,
             appended := t.appended + chunk.length }
  | .next cap =>
    let r := conduit_line_buffer_next_line t.buf cap
    if r.1 then
      { buf := r.2.2,
        lines := t.lines ++ [r.2.1.dropLast],
        appended := t.appended,
        consumed := t.consumed +
          (match earliestNewline (pendContent t.buf) with
           | some i => consumeCount (pendContent t.buf) i
           | none => 0) }
    else t

def lbInit : LBTrace :=
  { buf := conduit_line_buffer_create 0, lines := [], appended := 0, consumed := 0 }

def lbRun (ops : List LBOp) : LBTrace :=
  ops.foldl lbStep lbInit

/-- Concatenation of all bytes appended by an op list. -/
def concatAppends (ops : List LBOp) : List Char :=
  ops.foldr (fun op acc => match op with | .app c => c ++ acc | .next _ => acc) []

/-! ## SSE parser (`conduit_sse_parser.c`) -/

structure SseState where
  current_id : List Char
  current_event : List Char
  current_data : List Char
  current_retry : Int
  has_id : Bool
  has_event : Bool
  has_data : Bool
  last_event_id : List Char
  reconnection_time : Int
deriving Repr, DecidableEq

/-- `conduit_sse_parser_create`. -/
def conduit_sse_parser_create : SseState :=
  { current_id := [], current_event := [], current_data := [],
    current_retry := -1, has_id := false, has_event := false, has_data := false,
    last_event_id := [], reconnection_time := 3000 }

/-- The record handed to the dispatch callback. -/
structure SseEvent where
  id : Option (List Char)
  event : Option (List Char)
  data : List Char
  retry : Int
deriving Repr, DecidableEq

/-- `reset_current_event`. -/
def reset_current_event (p : SseState) : SseState :=
  { p with current_id := [], current_event := [], current_data := [],
           current_retry := -1, has_id := false, has_event := false, has_data := false }

/-- `dispatch_if_needed`: the returned list holds the event passed to the
callback (empty if the dispatch was suppressed). -/
def dispatch_if_needed (p : SseState) : SseState × List SseEvent :=
  let is_data_empty := p.current_data.length = 0
  if is_data_empty ∧ ¬p.has_id ∧ ¬p.has_event ∧ ¬p.has_data then
    (reset_current_event p, [])
  else
    (reset_current_event p,
      [{ id := if p.has_id then some p.current_id else none,
         event := if p.has_event then some p.current_event else none,
         data := p.current_data,
         retry := p.current_retry }])

/-- Strip trailing `\r` bytes (the C `while` loop). -/
def stripTrailingCRs (l : List Char) : List Char :=
  ((l.reverse.dropWhile (fun c => c == '\r'))).reverse

/-- Strip a leading UTF-8 BOM. -/
def stripBOM (l : List Char) : List Char :=
  match l with
  | a :: b :: c :: rest =>
    if a = Char.ofNat 0xEF ∧ b = Char.ofNat 0xBB ∧ c = Char.ofNat 0xBF then rest else l
  | _ => l

/-- The per-line normalisation performed at the top of
`conduit_sse_ingest_line`. -/
def normalizeLine (l : List Char) : List Char :=
  stripBOM (stripTrailingCRs l)

/-- Field name of a normalised, non-comment line (bytes before the first
colon, or the entire line). -/
def fieldOf (n : List Char) : List Char :=
  match n.findIdx? (fun c => c == ':') with
  | some i => n.take i
  | none => n

/-- Value of a normalised line: bytes after the first colon, with exactly
one leading space dropped; empty for a colonless line. -/
def valueOf (n : List Char) : List Char :=
  match n.findIdx? (fun c => c == ':') with
  | some i =>
    let v := n.drop (i + 1)
    if v.head? = some ' ' then v.tail else v
  | none => []

/-- Two's-complement wrap of a C `int` computation. -/
def wrap32 (x : Int) : Int :=
  (x + 2 ^ 31) % 2 ^ 32 - 2 ^ 31

/-- The retry-parsing loop: running value `ms` and the `valid` flag, with
the overflow guard `ms > 214748364` checked before each step and the
arithmetic wrapped at 32 bits (signed overflow realised as wrapping). -/
def retryFold (value : List Char) : Int × Bool :=
  value.foldl
    (fun acc c =>
      if ¬acc.2 then acc
      else if '0' ≤ c ∧ c ≤ '9' then
        if acc.1 > 214748364 then (acc.1, false)
        else (wrap32 (acc.1 * 10 + ((c.toNat : Int) - 48)), true)
      else (acc.1, false))
    (0, value.length ≠ 0)

/-- `conduit_sse_ingest_line` (callback modelled as a list of dispatched
events). -/
def conduit_sse_ingest_line (p : SseState) (line : List Char) :
    SseState × List SseEvent :=
  let l := normalizeLine line
  if l.length = 0 then dispatch_if_needed p
  else if l.head? = some ':' then (p, [])
  else
    let field := fieldOf l
    let value := valueOf l
    if field = "event".toList then
      ({ p with current_event := value, has_event := true }, [])
    else if field = "data".toList then
      let nd :=
        if p.current_data.length > 0 then p.current_data ++ '\n' :: value
        else p.current_data ++ value
      ({ p with current_data := nd, has_data := true }, [])
    else if field = "id".toList then
      if value.any (fun c => c = Char.ofNat 0) then (p, [])
      else ({ p with current_id := value, has_id := true, last_event_id := value }, [])
    else if field = "retry".toList then
      let r := retryFold value
      if r.2 ∧ r.1 > 0 then
        ({ p with reconnection_time := r.1, current_retry := r.1 }, [])
      else (p, [])
    else (p, [])

/-- `conduit_sse_finish`. -/
def conduit_sse_finish (p : SseState) : SseState × List SseEvent :=
  if p.current_data.length > 0 ∨ p.has_id ∨ p.has_event then dispatch_if_needed p
  else (p, [])

/-! ### Runs of the SSE parser -/

inductive SseOp where
  | line (l : List Char)
  | finish
deriving Repr, DecidableEq

/-- Plain run: fold ingest/finish over an op list, collecting dispatched
events in order. -/
def sseStepP (s : SseState × List SseEvent) (op : SseOp) : SseState × List SseEvent :=
  match op with
  | .line l =>
    let r := conduit_sse_ingest_line s.1 l
    (r.1, s.2 ++ r.2)
  | .finish =>
    let r := conduit_sse_finish s.1
    (r.1, s.2 ++ r.2)

def sseRun (ops : List SseOp) : SseState × List SseEvent :=
  ops.foldl sseStepP (conduit_sse_parser_create, [])

/-- A line is blank (triggers dispatch) iff it normalises to the empty
line. -/
def isBlankLine (l : List Char) : Bool :=
  (normalizeLine l).length = 0

/-- Instrumented run: additionally records, for every dispatched event,
the (raw) lines ingested since the previous reset — its event block. -/
structure SseGRun where
  st : SseState
  events : List (SseEvent × List (List Char))
  block : List (List Char)
deriving Repr, DecidableEq

def sseGStep (g : SseGRun) (op : SseOp) : SseGRun :=
  match op with
  | .line l =>
    let r := conduit_sse_ingest_line g.st l
    { st := r.1,
      events := g.events ++ r.2.map (fun e => (e, g.block)),
      block := if isBlankLine l then [] else g.block ++ [l] }
  | .finish =>
    let r := conduit_sse_finish g.st
    { st := r.1,
      events := g.events ++ r.2.map (fun e => (e, g.block)),
      block := if g.st.current_data.length > 0 ∨ g.st.has_id ∨ g.st.has_event then []
               else g.block }

def sseGInit : SseGRun := { st := conduit_sse_parser_create, events := [], block := [] }

def sseGRunF (ops : List SseOp) : SseGRun :=
  ops.foldl sseGStep sseGInit

/-- A raw line whose ingestion updates `current_data` (non-blank,
non-comment, field name exactly `data`). -/
def isDataLine (l : List Char) : Bool :=
  let n := normalizeLine l
  ¬n.length = 0 ∧ ¬n.head? = some ':' ∧ fieldOf n = "data".toList

/-- Effect of a single ingested line on `current_retry`, starting from
`r` (mirrors the `retry` branch of `conduit_sse_ingest_line`; blank lines
do not occur inside a block). -/
def retryUpdate (r : Int) (l : List Char) : Int :=
  let n := normalizeLine l
  if n.length = 0 then r
  else if n.head? = some ':' then r
  else if fieldOf n = "retry".toList then
    let pr := retryFold (valueOf n)
    if pr.2 ∧ pr.1 > 0 then pr.1 else r
  else r

/-- The retry value accumulated by a block of lines, starting from the
reset value `-1`. -/
def blockRetry (bs : List (List Char)) : Int :=
  bs.foldl retryUpdate (-1)

/-! ## Vector kernels (`conduit_vector_ops.c`)

The `float` arithmetic is modelled over an arbitrary linear ordered field
`F` with an abstract square root `s` (IEEE rounding and NaN behaviour are
outside the shallow embedding; the scalar loops and guard structure are
transcribed exactly).  Arrays are modelled as functions `Nat → F`, and the
loops as folds over `List.range`. -/

/-- The fused accumulation loop of `conduit_cosine_similarity`:
`(dot, normA, normB)` after `n` iterations. -/
def cosineLoop {F : Type} [LinearOrderedField F] (a b : Nat → F) (n : Nat) :
    F × F × F :=
  (List.range n).foldl
    (fun acc i => (acc.1 + a i * b i, acc.2.1 + a i * a i, acc.2.2 + b i * b i))
    (0, 0, 0)

/-- `conduit_cosine_similarity` with abstract square root `s`. -/
def conduit_cosine_similarity {F : Type} [LinearOrderedField F]
    (s : F → F) (a b : Nat → F) (count : Nat) : F :=
  if count = 0 then 0
  else
    let t := cosineLoop a b count
    let denom := s t.2.1 * s t.2.2
    if denom > 0 then t.1 / denom else 0

/-- The query-norm accumulation loop of the batch kernel. -/
def batchQueryNormSq {F : Type} [LinearOrderedField F] (q : Nat → F) (dim : Nat) : F :=
  (List.range dim).foldl (fun acc i => acc + q i * q i) 0

/-- The fused per-vector loop of the batch kernel: `(dot, vec_norm_sq)`. -/
def batchInnerLoop {F : Type} [LinearOrderedField F] (q vec : Nat → F) (dim : Nat) :
    F × F :=
  (List.range dim).foldl
    (fun acc i => (acc.1 + q i * vec i, acc.2 + vec i * vec i))
    (0, 0)

/-- `conduit_cosine_similarity_batch`: the value stored in `results[v]`
(for `dim > 0`, `count > 0`, `v < count`). -/
def conduit_cosine_similarity_batch {F : Type} [LinearOrderedField F]
    (s : F → F) (query vectors : Nat → F) (dimensions count v : Nat) : F :=
  if dimensions = 0 ∨ count = 0 then 0
  else
    let query_norm := s (batchQueryNormSq query dimensions)
    if query_norm = 0 then 0
    else
      let vec := fun i => vectors (v * dimensions + i)
      let t := batchInnerLoop query vec dimensions
      let vec_norm := s t.2
      if vec_norm > 0 then t.1 / (query_norm * vec_norm) else 0

/-! ## JSON repair (`conduit_json_repair.c`) -/

/-- The ASCII whitespace set used throughout the JSON code
(space, tab, LF, CR). -/
def isJsonWs (c : Char) : Bool :=
  c == ' ' || c == '\t' || c == '\n' || c == '\r'

/-- Bracket kinds tracked by the repair stack. -/
inductive Bracket where
  | brace
  | square
deriving Repr, DecidableEq

/-- JSON context returned by the context scan. -/
inductive JsonCtx where
  | unknown
  | object
  | array
deriving Repr, DecidableEq

/-- `trim_trailing_whitespace`. -/
def trim_trailing_whitespace (buf : List Char) : List Char :=
  (buf.reverse.dropWhile isJsonWs).reverse

/-- `is_hex_digit`. -/
def is_hex_digit (c : Char) : Bool :=
  ('0' ≤ c ∧ c ≤ '9') ∨ ('a' ≤ c ∧ c ≤ 'f') ∨ ('A' ≤ c ∧ c ≤ 'F')

/-- The backslash search of `remove_partial_unicode_escape`: the C loop
walks `i` upward over `[search_start, len)` remembering the last `\`. -/
def lastBackslashPos (buf : List Char) : Option Nat :=
  let start := if buf.length > 6 then buf.length - 6 else 0
  (List.range buf.length).foldl
    (fun acc i => if start ≤ i ∧ buf.get? i = some '\\' then some i else acc)
    none

/-- `remove_partial_unicode_escape`. -/
def remove_partial_unicode_escape (buf : List Char) : List Char :=
  if buf.length < 2 then buf
  else
    match lastBackslashPos buf with
    | none => buf
    | some p =>
      if p + 1 ≥ buf.length then buf
      else if buf.get? (p + 1) = some 'u' then
        if ((buf.drop (p + 2)).takeWhile is_hex_digit).length < 4 then buf.take p
        else buf
      else buf

/-- The string/bracket scanner state shared by Phase A and the context
scan: `in_string`, `escape_next`, and the bracket stack (top at the end
of the list). -/
structure ScanSt where
  inStr : Bool
  esc : Bool
  stack : List Bracket
deriving Repr, DecidableEq

def scanInit : ScanSt := { inStr := false, esc := false, stack := [] }

/-- One step of the Phase A scanner, with depth cap `effMax`. -/
def phaseAStep (effMax : Nat) (st : ScanSt) (c : Char) : ScanSt :=
  if st.esc then { st with esc := false }
  else if st.inStr then
    if c = '\\' then { st with esc := true }
    else if c = '"' then { st with inStr := false }
    else st
  else if c = '"' then { st with inStr := true }
  else if c = '{' then
    if st.stack.length < effMax then { st with stack := st.stack ++ [Bracket.brace] } else st
  else if c = '}' then
    if st.stack.length > 0 then { st with stack := st.stack.dropLast } else st
  else if c = '[' then
    if st.stack.length < effMax then { st with stack := st.stack ++ [Bracket.square] } else st
  else if c = ']' then
    if st.stack.length > 0 then { st with stack := st.stack.dropLast } else st
  else st

/-- `find_context`: forward string-aware scan with the fixed 256-deep
stack; the innermost unmatched opener decides the context. -/
def find_context (buf : List Char) : JsonCtx :=
  let st := buf.foldl (phaseAStep 256) scanInit
  match st.stack.getLast? with
  | none => JsonCtx.unknown
  | some Bracket.brace => JsonCtx.object
  | some Bracket.square => JsonCtx.array

/-- The backward scan of `remove_incomplete_kvp` looking for an
unescaped quote: the run of backslashes directly before index `i`. -/
def backslashRun (buf : List Char) (i : Nat) : Nat :=
  ((buf.take i).reverse.takeWhile (fun c => c == '\\')).length

/-- The C `while (idx > 0)` loop: largest `p` with `0 < p ≤ start` whose
byte is a quote preceded by an even backslash run, else `0`. -/
def kvpScanBack (buf : List Char) : Nat → Nat
  | 0 => 0
  | p + 1 =>
    if buf.get? (p + 1) = some '"' ∧ backslashRun buf (p + 1) % 2 = 0 then p + 1
    else kvpScanBack buf p

/-- The C `while (prev > 0 && ws)` loop stepping backward over
whitespace. -/
def skipWsBack (buf : List Char) : Nat → Nat
  | 0 => 0
  | p + 1 =>
    match buf.get? (p + 1) with
    | some c => if isJsonWs c then skipWsBack buf p else p + 1
    | none => p + 1

/-- `remove_incomplete_kvp`. -/
def remove_incomplete_kvp (buf0 : List Char) : List Char :=
  let buf1 := trim_trailing_whitespace buf0
  let buf2 :=
    if buf1.getLast? = some ',' then trim_trailing_whitespace buf1.dropLast else buf1
  let buf3 :=
    if buf2.getLast? = some ':' then
      let b := trim_trailing_whitespace buf2.dropLast
      if b.getLast? = some '"' then
        let b1 := b.dropLast
        let b2 := (b1.reverse.dropWhile (fun c => ¬c == '"')).reverse
        let b3 := if b2.length > 0 then b2.dropLast else b2
        let b4 := trim_trailing_whitespace b3
        if b4.getLast? = some ',' then b4.dropLast else b4
      else b
    else buf2
  if buf3.getLast? = some '"' then
    let close_quote := buf3.length - 1
    let start := close_quote - 1
    let idx := kvpScanBack buf3 start
    let prev0 := if idx > 0 then idx - 1 else idx
    let prev := skipWsBack buf3 prev0
    if buf3.get? prev = some '{' then
      trim_trailing_whitespace (buf3.take idx)
    else if buf3.get? prev = some ',' then
      if find_context (buf3.take prev) = JsonCtx.object then
        let t := trim_trailing_whitespace (buf3.take idx)
        if t.getLast? = some ',' then t.dropLast else t
      else buf3
    else buf3
  else buf3

/-- The loop of `remove_trailing_commas`, threading the output count
`out` against the capacity guard `out < output_capacity - 1`. -/
def removeTCGo (outCap : Nat) : Nat → Bool → Bool → List Char → List Char
  | _, _, _, [] => []
  | out, inStr, esc, c :: rest =>
    if ¬out < outCap - 1 then []
    else if esc then c :: removeTCGo outCap (out + 1) inStr false rest
    else if inStr then
      if c = '\\' then c :: removeTCGo outCap (out + 1) true true rest
      else if c = '"' then c :: removeTCGo outCap (out + 1) false false rest
      else c :: removeTCGo outCap (out + 1) true false rest
    else if c = '"' then c :: removeTCGo outCap (out + 1) true false rest
    else if c = ',' then
      match (rest.dropWhile isJsonWs).head? with
      | some '}' => removeTCGo outCap out false false rest
      | some ']' => removeTCGo outCap out false false rest
      | _ => c :: removeTCGo outCap (out + 1) false false rest
    else c :: removeTCGo outCap (out + 1) false false rest
termination_by structural _ _ _ l => l

/-- `remove_trailing_commas` (the in-place final pass). -/
def remove_trailing_commas (input : List Char) (output_capacity : Nat) : List Char :=
  removeTCGo output_capacity 0 false false input

/-- The closer-appending loop of Phase D: `stack` is passed top-first. -/
def appendClosersGo (cap : Nat) : List Bracket → List Char → List Char
  | [], buf => buf
  | b :: rest, buf =>
    if buf.length < cap - 1 then
      let t := trim_trailing_whitespace buf
      let t2 := if t.getLast? = some ',' then t.dropLast else t
      appendClosersGo cap rest
        (t2 ++ [match b with | Bracket.brace => '}' | Bracket.square => ']'])
    else buf

/-- `conduit_json_repair`: returns the C return value and the bytes of
the output buffer up to (excluding) the NUL terminator. -/
def conduit_json_repair (input : List Char) (output_capacity : Nat) (max_depth : Int) :
    Int × List Char :=
  let md : Int := if max_depth < 1 then 1 else max_depth
  if output_capacity < 3 then (-1, [])
  else
    let rest := input.dropWhile isJsonWs
    if rest.length = 0 then (2, ['{', '}'])
    else
      let effMax : Nat := if md < 256 then md.toNat else 256
      if output_capacity ≤ effMax + 2 then (-1, [])
      else
        let capContent := output_capacity - (effMax + 2)
        let copied := rest.take capContent
        let st := copied.foldl (phaseAStep effMax) scanInit
        let b1 :=
          if st.inStr then
            let o1 := remove_partial_unicode_escape copied
            let o2 := if st.esc ∧ o1.getLast? = some '\\' then o1.dropLast else o1
            if o2.length < output_capacity - 1 then o2 ++ ['"'] else o2
          else copied
        let b2 := trim_trailing_whitespace b1
        let b3 := if b2.getLast? = some ',' then b2.dropLast else b2
        let b4 := remove_incomplete_kvp b3
        let b5 := appendClosersGo output_capacity st.stack.reverse b4
        let fin := remove_trailing_commas b5 output_capacity
        (Int.ofNat fin.length, fin)

/-! ## JSON completer (`conduit_json_completer.c`) -/

/-- The completer's result record (`completion_t`); the 128-byte
`suffix_buf` bound shows up as the `< 128` guards on composite
suffixes. -/
structure Completion where
  found : Bool
  suffix : List Char
  end_offset : Nat
deriving Repr, DecidableEq

def noCompletion : Completion := { found := false, suffix := [], end_offset := 0 }

/-- `skip_ws` (index form). -/
def skip_ws (json : List Char) (pos : Nat) : Nat :=
  pos + ((json.drop pos).takeWhile isJsonWs).length

/-- The scan loop of `complete_string`: is the string starting after the
opening quote terminated by an unescaped quote? -/
def strComplete : List Char → Bool → Bool
  | [], _ => false
  | c :: rest, escaped =>
    if c = '\\' then strComplete rest (!escaped)
    else if c = '"' ∧ ¬escaped then true
    else strComplete rest false

/-- `complete_string`. -/
def complete_string (json : List Char) (pos : Nat) : Completion :=
  if ¬json.get? pos = some '"' then noCompletion
  else if strComplete (json.drop (pos + 1)) false then noCompletion
  else { found := true, suffix := ['"'], end_offset := json.length }

/-- Digit test used by the completer. -/
def isDigitCh (c : Char) : Bool :=
  '0' ≤ c ∧ c ≤ '9'

/-- `complete_number`. -/
def complete_number (json : List Char) (pos : Nat) : Completion :=
  let cur0 := if json.get? pos = some '-' then pos + 1 else pos
  if cur0 ≥ json.length then
    { found := true, suffix := ['0'], end_offset := cur0 }
  else if json.get? cur0 = some '.' then
    { found := true, suffix := ['0', '.', '0'], end_offset := cur0 }
  else
    let cur1 := cur0 + ((json.drop cur0).takeWhile isDigitCh).length
    let afterInt :=
      if json.get? cur1 = some '.' then
        let fracLen := ((json.drop (cur1 + 1)).takeWhile isDigitCh).length
        if fracLen = 0 then none else some (cur1 + 1 + fracLen)
      else some cur1
    match afterInt with
    | none => { found := true, suffix := ['0'], end_offset := cur1 + 1 }
    | some cur2 =>
      if json.get? cur2 = some 'e' ∨ json.get? cur2 = some 'E' then
        let cur3 :=
          if json.get? (cur2 + 1) = some '+' ∨ json.get? (cur2 + 1) = some '-' then cur2 + 2
          else cur2 + 1
        let expLen := ((json.drop cur3).takeWhile isDigitCh).length
        if cur3 ≥ json.length ∨ expLen = 0 then
          { found := true, suffix := ['0'], end_offset := cur3 }
        else noCompletion
      else noCompletion

/-- The matching loop of `complete_special`: `none` on a character
mismatch, otherwise the number of keyword characters matched before the
input or the keyword ran out. -/
def kwMatched : List Char → List Char → Option Nat
  | [], _ => some 0
  | _ :: _, [] => some 0
  | a :: ar, k :: kr =>
    if a = k then (kwMatched ar kr).map (· + 1) else none

/-- `complete_special`. -/
def complete_special (json : List Char) (pos : Nat) (kw : List Char) : Completion :=
  match kwMatched (json.drop pos) kw with
  | none => noCompletion
  | some m =>
    if m = kw.length then noCompletion
    else { found := true, suffix := kw.drop m, end_offset := pos + m }

/-- String scan of `find_end_of_complete_value`: number of characters
consumed from just after the opening quote through the closing quote (or
to the end of input). -/
def strScanEnd : List Char → Bool → Nat
  | [], _ => 0
  | c :: rest, escaped =>
    if c = '\\' then 1 + strScanEnd rest (!escaped)
    else if c = '"' ∧ ¬escaped then 1
    else 1 + strScanEnd rest false

/-- Bracket-matching scan of `find_end_of_complete_value`: number of
characters consumed from the opening bracket through its matching closer
(or to the end of input). -/
def bracketScan (openC closeC : Char) : List Char → Int → Bool → Bool → Nat
  | [], _, _, _ => 0
  | ch :: rest, level, inStr, esc =>
    if inStr then
      if ch = '\\' then 1 + bracketScan openC closeC rest level inStr (!esc)
      else if ch = '"' ∧ ¬esc then 1 + bracketScan openC closeC rest level false false
      else 1 + bracketScan openC closeC rest level inStr false
    else if ch = '"' then 1 + bracketScan openC closeC rest level true false
    else if ch = openC then 1 + bracketScan openC closeC rest (level + 1) false false
    else if ch = closeC then
      if level - 1 = 0 then 1 else 1 + bracketScan openC closeC rest (level - 1) false false
    else 1 + bracketScan openC closeC rest level false false

/-- The character class consumed by the sloppy number scan at the end of
`find_end_of_complete_value`. -/
def isNumClass (c : Char) : Bool :=
  c == '-' || c == '+' || c == '.' || c == 'e' || c == 'E' || isDigitCh c

mutual

/-- `complete_value` (fuel-indexed; the entry point supplies fuel that
dominates the C call depth). -/
def complete_value (fuel : Nat) (json : List Char) (pos : Nat) (depth max_depth : Int) :
    Completion :=
  match fuel with
  | 0 => noCompletion
  | f + 1 =>
    if depth ≥ max_depth then noCompletion
    else
      let p := skip_ws json pos
      match json.get? p with
      | none => noCompletion
      | some c =>
        if c = '{' then complete_object f json p depth max_depth
        else if c = '[' then complete_array f json p depth max_depth
        else if c = '"' then complete_string json p
        else if c = 't' then complete_special json p "true".toList
        else if c = 'f' then complete_special json p "false".toList
        else if c = 'n' then complete_special json p "null".toList
        else if c = '-' ∨ isDigitCh c then complete_number json p
        else noCompletion
termination_by structural fuel

/-- `complete_array`. -/
def complete_array (fuel : Nat) (json : List Char) (pos : Nat) (depth max_depth : Int) :
    Completion :=
  match fuel with
  | 0 => noCompletion
  | f + 1 =>
    if ¬json.get? pos = some '[' then noCompletion
    else
      let cur := skip_ws json (pos + 1)
      if cur ≥ json.length ∨ json.get? cur = some ']' then
        { found := true, suffix := [']'], end_offset := cur }
      else arrayLoop f json cur false (pos + 1) depth max_depth
termination_by structural fuel

/-- The element loop of `complete_array` (`cur`, `requires_comma`,
`last_valid`). -/
def arrayLoop (fuel : Nat) (json : List Char) (cur : Nat) (req : Bool)
    (lastValid : Nat) (depth max_depth : Int) : Completion :=
  match fuel with
  | 0 => noCompletion
  | f + 1 =>
    if cur ≥ json.length then { found := true, suffix := [']'], end_offset := lastValid }
    else if json.get? cur = some ']' then noCompletion
    else if req then
      if json.get? cur = some ',' then
        let c2 := skip_ws json (cur + 1)
        if c2 ≥ json.length then { found := true, suffix := [']'], end_offset := lastValid }
        else arrayLoop f json c2 false c2 depth max_depth
      else { found := true, suffix := [']'], end_offset := lastValid }
    else
      let elem := complete_value f json cur (depth + 1) max_depth
      if elem.found then
        if elem.suffix.length + 1 < 128 then
          { found := true, suffix := elem.suffix ++ [']'], end_offset := elem.end_offset }
        else { found := true, suffix := [']'], end_offset := elem.end_offset }
      else
        let e := find_end_of_complete_value f json cur max_depth
        arrayLoop f json e true e depth max_depth
termination_by structural fuel

/-- `complete_object`. -/
def complete_object (fuel : Nat) (json : List Char) (pos : Nat) (depth max_depth : Int) :
    Completion :=
  match fuel with
  | 0 => noCompletion
  | f + 1 =>
    if ¬json.get? pos = some '{' then noCompletion
    else
      let cur := skip_ws json (pos + 1)
      if cur ≥ json.length ∨ json.get? cur = some '}' then
        { found := true, suffix := ['}'], end_offset := cur }
      else objectLoop f json cur false (pos + 1) depth max_depth
termination_by structural fuel

/-- The member loop of `complete_object`. -/
def objectLoop (fuel : Nat) (json : List Char) (cur : Nat) (req : Bool)
    (lastValid : Nat) (depth max_depth : Int) : Completion :=
  match fuel with
  | 0 => noCompletion
  | f + 1 =>
    if cur ≥ json.length then { found := true, suffix := ['}'], end_offset := lastValid }
    else if json.get? cur = some '}' then noCompletion
    else if req then
      if json.get? cur = some ',' then
        let c2 := skip_ws json (cur + 1)
        if c2 ≥ json.length then { found := true, suffix := ['}'], end_offset := lastValid }
        else objectLoop f json c2 false c2 depth max_depth
      else { found := true, suffix := ['}'], end_offset := lastValid }
    else
      let keyComp := complete_string json cur
      if keyComp.found then
        if keyComp.suffix.length + 7 < 128 then
          { found := true, suffix := keyComp.suffix ++ ":".toList ++ " null\x7d".toList,
            end_offset := keyComp.end_offset }
        else { found := true, suffix := ['}'], end_offset := keyComp.end_offset }
      else
        let keyEnd := find_end_of_complete_value f json cur max_depth
        if keyEnd ≤ cur then { found := true, suffix := ['}'], end_offset := lastValid }
        else
          let c3 := skip_ws json keyEnd
          if c3 ≥ json.length ∨ ¬json.get? c3 = some ':' then
            { found := true, suffix := ":".toList ++ " null\x7d".toList, end_offset := keyEnd }
          else
            let c4 := skip_ws json (c3 + 1)
            if c4 ≥ json.length then
              { found := true, suffix := "null\x7d".toList, end_offset := c3 + 1 }
            else
              let valComp := complete_value f json c4 (depth + 1) max_depth
              if valComp.found then
                if valComp.suffix.length + 1 < 128 then
                  { found := true, suffix := valComp.suffix ++ ['}'],
                    end_offset := valComp.end_offset }
                else { found := true, suffix := ['}'], end_offset := valComp.end_offset }
              else
                let ve := find_end_of_complete_value f json c4 max_depth
                objectLoop f json ve true ve depth max_depth
termination_by structural fuel

/-- `find_end_of_complete_value`. -/
def find_end_of_complete_value (fuel : Nat) (json : List Char) (pos : Nat)
    (max_depth : Int) : Nat :=
  match fuel with
  | 0 => pos
  | f + 1 =>
    let p := skip_ws json pos
    if p ≥ json.length then p
    else
      let c := complete_value f json p 0 max_depth
      if c.found then c.end_offset
      else
        match json.get? p with
        | some '"' => p + 1 + strScanEnd (json.drop (p + 1)) false
        | some '{' => p + bracketScan '{' '}' (json.drop p) 0 false false
        | some '[' => p + bracketScan '[' ']' (json.drop p) 0 false false
        | some 't' =>
          if (json.drop p).take 4 = "true".toList then p + 4 else p
        | some 'f' =>
          if (json.drop p).take 5 = "false".toList then p + 5 else p
        | some 'n' =>
          if (json.drop p).take 4 = "null".toList then p + 4 else p
        | some c' =>
          if c' = '-' ∨ isDigitCh c' then p + ((json.drop p).takeWhile isNumClass).length
          else p
        | none => p
termination_by structural fuel

end

/-- Fuel supplied by the top-level completer entry point; it dominates
the maximal call-chain depth of the C recursion on an input of this
length. -/
def completeFuel (input : List Char) : Nat :=
  4 * input.length + 16

/-- `conduit_json_complete`: the C return value and the output bytes
(excluding the NUL terminator). -/
def conduit_json_complete (input : List Char) (output_capacity : Nat) (max_depth : Int) :
    Int × List Char :=
  if output_capacity < 1 then (-1, [])
  else if input.length = 0 then (0, [])
  else
    let md : Int := if max_depth < 1 then 64 else max_depth
    let c := complete_value (completeFuel input) input 0 0 md
    if ¬c.found then (0, [])
    else
      let total := c.end_offset + c.suffix.length
      if total + 1 > output_capacity then (-1, [])
      else (Int.ofNat total, input.take c.end_offset ++ c.suffix)

/-! ## Strict JSON syntax (from the spec)

The repair and completer claims are stated against "syntactically valid
JSON (brackets balanced, strings closed, no trailing commas)".  Modelled
from the spec: a recursive-descent recogniser for the RFC 8259 grammar.
Every parser takes an explicit fuel argument and returns the unconsumed
remainder on success. -/

/-- Modelled from the spec: one-or-more-hex-digit check used by string
escapes. -/
def isHexCh (c : Char) : Bool :=
  ('0' ≤ c ∧ c ≤ '9') ∨ ('a' ≤ c ∧ c ≤ 'f') ∨ ('A' ≤ c ∧ c ≤ 'F')

/-- Modelled from the spec: parse the body of a JSON string after the
opening quote, through the closing quote. -/
def parseStringBody (fuel : Nat) : List Char → Option (List Char)
  | [] => none
  | c :: rest =>
    match fuel with
    | 0 => none
    | f + 1 =>
      if c = '"' then some rest
      else if c = '\\' then
        match rest with
        | [] => none
        | e :: rest2 =>
          if e = '"' ∨ e = '\\' ∨ e = '/' ∨ e = 'b' ∨ e = 'f' ∨ e = 'n' ∨ e = 'r' ∨ e = 't' then
            parseStringBody f rest2
          else if e = 'u' then
            match rest2 with
            | h1 :: h2 :: h3 :: h4 :: rest3 =>
              if isHexCh h1 ∧ isHexCh h2 ∧ isHexCh h3 ∧ isHexCh h4 then
                parseStringBody f rest3
              else none
            | _ => none
          else none
      else if 32 ≤ c.toNat then parseStringBody f rest
      else none

/-- Modelled from the spec: exponent tail after `e`/`E`. -/
def parseExpTail (l : List Char) : Option (List Char) :=
  let r := match l with
    | '+' :: r => r
    | '-' :: r => r
    | _ => l
  if (r.takeWhile isDigitCh).length = 0 then none else some (r.dropWhile isDigitCh)

/-- Modelled from the spec: parse a JSON number (minus the leading sign
dispatch, which the caller performs): `int frac? exp?` with no leading
zeros. -/
def parseNumberTail (l : List Char) : Option (List Char) :=
  let intPart : Option (List Char) :=
    match l with
    | '0' :: r => some r
    | c :: r => if '1' ≤ c ∧ c ≤ '9' then some (r.dropWhile isDigitCh) else none
    | [] => none
  match intPart with
  | none => none
  | some r1 =>
    let r2 : Option (List Char) :=
      match r1 with
      | '.' :: r => if (r.takeWhile isDigitCh).length = 0 then none else some (r.dropWhile isDigitCh)
      | _ => some r1
    match r2 with
    | none => none
    | some r2v =>
      match r2v with
      | 'e' :: r => parseExpTail r
      | 'E' :: r => parseExpTail r
      | _ => some r2v

mutual

/-- Modelled from the spec: parse one JSON value starting at the head of
`l` (no leading whitespace). -/
def parseValue (fuel : Nat) (l : List Char) : Option (List Char) :=
  match fuel with
  | 0 => none
  | f + 1 =>
    match l with
    | [] => none
    | c :: rest =>
      if c = '"' then parseStringBody (rest.length + 1) rest
      else if c = '{' then
        match rest.dropWhile isJsonWs with
        | '}' :: r => some r
        | r => parseMembers f r
      else if c = '[' then
        match rest.dropWhile isJsonWs with
        | ']' :: r => some r
        | r => parseElements f r
      else if c = 't' then
        match l with
        | 't' :: 'r' :: 'u' :: 'e' :: r => some r
        | _ => none
      else if c = 'f' then
        match l with
        | 'f' :: 'a' :: 'l' :: 's' :: 'e' :: r => some r
        | _ => none
      else if c = 'n' then
        match l with
        | 'n' :: 'u' :: 'l' :: 'l' :: r => some r
        | _ => none
      else if c = '-' then parseNumberTail rest
      else if isDigitCh c then parseNumberTail l
      else none

/-- Modelled from the spec: parse one or more `string : value` members
followed by the closing `}` (commas separate, no trailing comma). -/
def parseMembers (fuel : Nat) (l : List Char) : Option (List Char) :=
  match fuel with
  | 0 => none
  | f + 1 =>
    match l with
    | '"' :: rest =>
      match parseStringBody (rest.length + 1) rest with
      | none => none
      | some r1 =>
        match r1.dropWhile isJsonWs with
        | ':' :: r2 =>
          match parseValue f (r2.dropWhile isJsonWs) with
          | none => none
          | some r3 =>
            match r3.dropWhile isJsonWs with
            | ',' :: r4 => parseMembers f (r4.dropWhile isJsonWs)
            | '}' :: r4 => some r4
            | _ => none
        | _ => none
    | _ => none

/-- Modelled from the spec: parse one or more array elements followed by
the closing `]`. -/
def parseElements (fuel : Nat) (l : List Char) : Option (List Char) :=
  match fuel with
  | 0 => none
  | f + 1 =>
    match parseValue f l with
    | none => none
    | some r1 =>
      match r1.dropWhile isJsonWs with
      | ',' :: r2 => parseElements f (r2.dropWhile isJsonWs)
      | ']' :: r2 => some r2
      | _ => none

end

/-- Modelled from the spec: `l` is syntactically valid JSON — optional
whitespace, one value, optional whitespace. -/
def jsonValidList (l : List Char) : Bool :=
  match parseValue (2 * l.length + 2) (l.dropWhile isJsonWs) with
  | some r => (r.dropWhile isJsonWs).isEmpty
  | none => false

/-! # Theorems -/

/-! ## Counterexamples and bug witnesses -/

/-- C1 (counterexample): the input `abc` passes every capacity check
(100 > min(64,256) + 2) and `conduit_json_repair` succeeds, but the
output is `abc` verbatim, which is not syntactically valid JSON. -/
theorem json_repair_validity_cx :
    conduit_json_repair ("abc".toList) 100 64 = (3, "abc".toList) ∧
    jsonValidList ("abc".toList) = false := by
  decide

/-- C2 (counterexample): on input `abc` the completer reports
`found = false` (returning 0 with empty output) although the input is not
valid JSON; and on input `[1.2.3, ` it reports `found = true` and emits
`[1.2.3]`, which is not valid JSON (the sloppy number scan of
`find_end_of_complete_value` accepted `1.2.3` as one element). -/
theorem json_complete_validity_cx :
    (conduit_json_complete ("abc".toList) 300 64 = (0, []) ∧
      jsonValidList ("abc".toList) = false) ∧
    ((complete_value (completeFuel ("[1.2.3, ".toList)) ("[1.2.3, ".toList) 0 0 64).found
        = true ∧
      (conduit_json_complete ("[1.2.3, ".toList) 300 64).2 = "[1.2.3]".toList ∧
      jsonValidList ("[1.2.3]".toList) = false) := by
  decide

/-- C3 (counterexample): ingesting the colonless line `data` sets
`has_data` while leaving `current_data` empty, so the following blank
line dispatches an event whose `data` is empty and whose `id` and `event`
are both NULL. -/
theorem sse_dispatch_empty_cx :
    (sseRun [SseOp.line ("data".toList), SseOp.line []]).2 =
      [{ id := none, event := none, data := [], retry := -1 }] := by
  decide

/-- C4 (counterexample): appending `a\r`, extracting, appending `\n`,
and extracting again returns the lines `a` and `` (empty), while the
offline split of the concatenated input `a\r\n` is the single line `a`:
a `\r\n` pair split across two appends with an intervening `next_line` is
consumed as two delimiters. -/
theorem line_buffer_crlf_split_cx :
    (lbRun [LBOp.app ("a\r".toList), LBOp.next 100, LBOp.app ("\n".toList),
        LBOp.next 100]).lines = [['a'], []] ∧
    splitLines (concatAppends [LBOp.app ("a\r".toList), LBOp.next 100,
        LBOp.app ("\n".toList), LBOp.next 100]) = [['a']] := by
  decide

/-- C5 (bug witness): the all-digit retry value `21474836481` represents
an integer greater than 2,147,483,647 and must be silently rejected, but
the guarded loop wraps twice (2147483648 → -2147483648, then
·10 + 1 → 1) and ends with `ms = 1 > 0`, so the parser sets both
`reconnection_time` and `current_retry` to 1 instead of leaving them at
their prior values 3000 and -1. -/
theorem sse_retry_overflow_bug :
    conduit_sse_parser_create.reconnection_time = 3000 ∧
    conduit_sse_parser_create.current_retry = -1 ∧
    (sseRun [SseOp.line ("retry: 21474836481".toList)]).1.reconnection_time = 1 ∧
    (sseRun [SseOp.line ("retry: 21474836481".toList)]).1.current_retry = 1 := by
  decide

/-! ## Line buffer helper lemmas -/

theorem pendContent_length (b : LineBuffer) :
    (pendContent b).length = b.data.length - b.read_pos := by
  simp [pendContent]

theorem pending_eq_pendContent (b : LineBuffer) :
    conduit_line_buffer_pending b = (pendContent b).length := by
  simp [conduit_line_buffer_pending, pendContent]

theorem maybe_compact_pendContent (b : LineBuffer) :
    pendContent (maybe_compact b) = pendContent b := by
  unfold maybe_compact
  split
  · simp [pendContent]
  · rfl

theorem maybe_compact_wf (b : LineBuffer) (h : b.read_pos ≤ b.data.length) :
    (maybe_compact b).read_pos ≤ (maybe_compact b).data.length := by
  unfold maybe_compact
  split
  · simp
  · exact h

theorem memchrIdx_some {l : List Char} {c : Char} {i : Nat}
    (h : memchrIdx l c = some i) :
    l.get? i = some c ∧ ∀ j, j < i → l.get? j ≠ some c := by
  induction l generalizing i with
  | nil => exact absurd h (by simp [memchrIdx])
  | cons x rest ih =>
    unfold memchrIdx at h
    by_cases hx : x = c
    · rw [if_pos hx] at h
      have hi : i = 0 := by
        have := Option.some.inj h
        omega
      subst hi
      subst hx
      exact ⟨rfl, fun j hj => absurd hj (by omega)⟩
    · rw [if_neg hx] at h
      rw [Option.map_eq_some'] at h
      obtain ⟨i', hi', hmap⟩ := h
      obtain ⟨h1, h2⟩ := ih hi'
      subst hmap
      refine ⟨h1, ?_⟩
      intro j hj
      cases j with
      | zero =>
        intro hcon
        exact hx (Option.some.inj hcon)
      | succ j' =>
        exact h2 j' (by omega)

theorem memchrIdx_none {l : List Char} {c : Char}
    (h : memchrIdx l c = none) : ∀ j, l.get? j ≠ some c := by
  induction l with
  | nil => intro j; cases j <;> simp
  | cons x rest ih =>
    unfold memchrIdx at h
    by_cases hx : x = c
    · rw [if_pos hx] at h
      exact absurd h (by simp)
    · rw [if_neg hx] at h
      rw [Option.map_eq_none'] at h
      intro j
      cases j with
      | zero =>
        intro hcon
        exact hx (Option.some.inj hcon)
      | succ j' =>
        exact ih h j'

/-- A character position is a delimiter position. -/
def isDelimAt (l : List Char) (j : Nat) : Prop :=
  l.get? j = some '\n' ∨ l.get? j = some '\r'

theorem earliestNewline_some {P : List Char} {i : Nat}
    (h : earliestNewline P = some i) :
    isDelimAt P i ∧ ∀ j, j < i → ¬isDelimAt P j := by
  unfold earliestNewline at h
  cases hlf : memchrIdx P '\n' with
  | none =>
    cases hcr : memchrIdx P '\r' with
    | none =>
      rw [hlf, hcr] at h
      exact absurd h (by simp)
    | some jcr =>
      rw [hlf, hcr] at h
      have hij : jcr = i := Option.some.inj h
      subst hij
      obtain ⟨h1, h2⟩ := memchrIdx_some hcr
      refine ⟨Or.inr h1, ?_⟩
      intro j' hj' hd
      cases hd with
      | inl hl => exact memchrIdx_none hlf j' hl
      | inr hr => exact h2 j' hj' hr
  | some ilf =>
    cases hcr : memchrIdx P '\r' with
    | none =>
      rw [hlf, hcr] at h
      have hij : ilf = i := Option.some.inj h
      subst hij
      obtain ⟨h1, h2⟩ := memchrIdx_some hlf
      refine ⟨Or.inl h1, ?_⟩
      intro j' hj' hd
      cases hd with
      | inl hl => exact h2 j' hj' hl
      | inr hr => exact memchrIdx_none hcr j' hr
    | some icr =>
      rw [hlf, hcr] at h
      have hij : min ilf icr = i := Option.some.inj h
      obtain ⟨hl1, hl2⟩ := memchrIdx_some hlf
      obtain ⟨hc1, hc2⟩ := memchrIdx_some hcr
      subst hij
      constructor
      · rcases Nat.le_total ilf icr with hle | hle
        · rw [min_eq_left hle]; exact Or.inl hl1
        · rw [min_eq_right hle]; exact Or.inr hc1
      · intro j' hj' hd
        have hj1 : j' < ilf := lt_of_lt_of_le hj' (min_le_left _ _)
        have hj2 : j' < icr := lt_of_lt_of_le hj' (min_le_right _ _)
        cases hd with
        | inl hl => exact hl2 j' hj1 hl
        | inr hr => exact hc2 j' hj2 hr

theorem earliestNewline_none {P : List Char}
    (h : earliestNewline P = none) : ∀ j, ¬isDelimAt P j := by
  unfold earliestNewline at h
  cases hlf : memchrIdx P '\n' with
  | none =>
    cases hcr : memchrIdx P '\r' with
    | none =>
      intro j hd
      cases hd with
      | inl hl => exact memchrIdx_none hlf j hl
      | inr hr => exact memchrIdx_none hcr j hr
    | some j =>
      rw [hlf, hcr] at h
      exact absurd h (by simp)
  | some i =>
    cases hcr : memchrIdx P '\r' with
    | none =>
      rw [hlf, hcr] at h
      exact absurd h (by simp)
    | some j =>
      rw [hlf, hcr] at h
      exact absurd h (by simp)

theorem get?_lt_length {l : List Char} {i : Nat} {c : Char}
    (h : l.get? i = some c) : i < l.length := by
  by_contra hge
  rw [List.get?_eq_none.mpr (by omega)] at h
  exact Option.noConfusion h

theorem earliestNewline_lt {P : List Char} {i : Nat}
    (h : earliestNewline P = some i) : i < P.length := by
  obtain ⟨h1, _⟩ := earliestNewline_some h
  cases h1 with
  | inl hl => exact get?_lt_length hl
  | inr hr => exact get?_lt_length hr

theorem consumeCount_le_length {P : List Char} {i : Nat}
    (h : i < P.length) : consumeCount P i ≤ P.length := by
  unfold consumeCount
  split
  · rename_i hc
    have := get?_lt_length hc.2
    omega
  · omega

theorem consumeCount_pos {P : List Char} (i : Nat) : i + 1 ≤ consumeCount P i := by
  unfold consumeCount
  split <;> omega

/-- `append` concatenates the chunk to the pending region and keeps the
read offset inside the written region. -/
theorem append_spec (b : LineBuffer) (chunk : List Char)
    (h : b.read_pos ≤ b.data.length) :
    pendContent (conduit_line_buffer_append b chunk) = pendContent b ++ chunk ∧
    (conduit_line_buffer_append b chunk).read_pos ≤
      (conduit_line_buffer_append b chunk).data.length := by
  unfold conduit_line_buffer_append
  by_cases hc : chunk.length = 0
  · rw [if_pos hc]
    have hnil : chunk = [] := List.length_eq_zero.mp hc
    subst hnil
    exact ⟨by simp, h⟩
  · rw [if_neg hc]
    simp only []
    have step : ∀ b1 : LineBuffer, b1.read_pos ≤ b1.data.length →
        pendContent b1 = pendContent b →
        ∀ b2 : LineBuffer, b2.data = b1.data → b2.read_pos = b1.read_pos →
        pendContent { b2 with data := b2.data ++ chunk } = pendContent b ++ chunk ∧
        ({ b2 with data := b2.data ++ chunk } : LineBuffer).read_pos ≤
          ({ b2 with data := b2.data ++ chunk } : LineBuffer).data.length := by
      intro b1 h1 hpend b2 hd hr
      constructor
      · show (b2.data ++ chunk).drop b2.read_pos = pendContent b ++ chunk
        rw [hd, hr, ← hpend]
        show (b1.data ++ chunk).drop b1.read_pos = b1.data.drop b1.read_pos ++ chunk
        rw [List.drop_append_eq_append_drop, Nat.sub_eq_zero_of_le h1, List.drop_zero]
      · show b2.read_pos ≤ (b2.data ++ chunk).length
        rw [hd, hr, List.length_append]
        omega
    split
    · split
      · exact step (maybe_compact b) (maybe_compact_wf b h) (maybe_compact_pendContent b)
          _ rfl rfl
      · exact step (maybe_compact b) (maybe_compact_wf b h) (maybe_compact_pendContent b)
          _ rfl rfl
    · exact step b h rfl _ rfl rfl

/-- Equation lemma: `next_line` with no pending delimiter. -/
theorem next_line_eq_none (b : LineBuffer) (cap : Nat)
    (hi : earliestNewline (pendContent b) = none) :
    conduit_line_buffer_next_line b cap = (false, [], b) := by
  unfold conduit_line_buffer_next_line
  by_cases hp : (pendContent b).length = 0
  · rw [if_pos hp]
  · rw [if_neg hp, hi]

/-- Equation lemma: `next_line` with the earliest delimiter at index `i`. -/
theorem next_line_eq_some (b : LineBuffer) (cap i : Nat)
    (hi : earliestNewline (pendContent b) = some i) :
    conduit_line_buffer_next_line b cap =
      if i ≥ cap then (false, [], b)
      else (true, (pendContent b).take i ++ [Char.ofNat 0],
        maybe_compact { b with read_pos := b.read_pos + consumeCount (pendContent b) i }) := by
  have hlt := earliestNewline_lt hi
  have hp : ¬(pendContent b).length = 0 := by omega
  unfold conduit_line_buffer_next_line
  rw [if_neg hp, hi]

/-- A successful `next_line` drops exactly `consumeCount` bytes from the
pending region. -/
theorem next_line_success_spec (b : LineBuffer) (cap i : Nat)
    (h : b.read_pos ≤ b.data.length)
    (hi : earliestNewline (pendContent b) = some i) (hcap : i < cap) :
    (conduit_line_buffer_next_line b cap).1 = true ∧
    pendContent (conduit_line_buffer_next_line b cap).2.2 =
      (pendContent b).drop (consumeCount (pendContent b) i) ∧
    (conduit_line_buffer_next_line b cap).2.2.read_pos ≤
      (conduit_line_buffer_next_line b cap).2.2.data.length := by
  have hlt := earliestNewline_lt hi
  have hcle := consumeCount_le_length hlt
  have hplen : (pendContent b).length = b.data.length - b.read_pos := pendContent_length b
  rw [next_line_eq_some b cap i hi, if_neg (by omega)]
  refine ⟨rfl, ?_, ?_⟩
  · rw [maybe_compact_pendContent]
    show b.data.drop (b.read_pos + consumeCount (pendContent b) i) =
      (b.data.drop b.read_pos).drop (consumeCount (pendContent b) i)
    rw [List.drop_drop]
  · apply maybe_compact_wf
    show b.read_pos + consumeCount (pendContent b) i ≤ b.data.length
    omega

/-! ## C7: pending-byte accounting -/

/-- The run invariant for the pending-byte accounting: the read offset
stays inside the written region, and pending plus consumed equals
appended. -/
def lbInv (t : LBTrace) : Prop :=
  t.buf.read_pos ≤ t.buf.data.length ∧
  conduit_line_buffer_pending t.buf + t.consumed = t.appended

theorem next_line_true_inv (b : LineBuffer) (cap : Nat)
    (h : (conduit_line_buffer_next_line b cap).1 = true) :
    ∃ i, earliestNewline (pendContent b) = some i ∧ i < cap := by
  cases hi : earliestNewline (pendContent b) with
  | none =>
    rw [next_line_eq_none b cap hi] at h
    exact absurd h (by simp)
  | some i =>
    rw [next_line_eq_some b cap i hi] at h
    by_cases hcap : i ≥ cap
    · rw [if_pos hcap] at h
      exact absurd h (by simp)
    · exact ⟨i, rfl, by omega⟩

theorem lbStep_inv {t : LBTrace} (h : lbInv t) (op : LBOp) : lbInv (lbStep t op) := by
  obtain ⟨hwf, hacc⟩ := h
  rw [pending_eq_pendContent] at hacc
  cases op with
  | app chunk =>
    obtain ⟨hpend, hwf'⟩ := append_spec t.buf chunk hwf
    simp only [lbStep]
    refine ⟨hwf', ?_⟩
    rw [pending_eq_pendContent]
    simp only [hpend, List.length_append]
    omega
  | next cap =>
    simp only [lbStep]
    cases hr : (conduit_line_buffer_next_line t.buf cap).1 with
    | false =>
      rw [if_neg (by simp [hr])]
      rw [lbInv, pending_eq_pendContent]
      exact ⟨hwf, hacc⟩
    | true =>
      rw [if_pos (by simp [hr])]
      obtain ⟨i, hi, hcap⟩ := next_line_true_inv t.buf cap hr
      obtain ⟨_, hpend, hwf'⟩ := next_line_success_spec t.buf cap i hwf hi hcap
      have hlt := earliestNewline_lt hi
      have hcle := consumeCount_le_length hlt
      refine ⟨hwf', ?_⟩
      rw [pending_eq_pendContent]
      simp only [hpend, hi, List.length_drop]
      omega

theorem lbRun_inv (ops : List LBOp) : lbInv (lbRun ops) := by
  have base : lbInv lbInit := by
    constructor <;> simp [lbInit, conduit_line_buffer_create, conduit_line_buffer_pending]
  unfold lbRun
  generalize lbInit = t0 at base ⊢
  induction ops generalizing t0 with
  | nil => simpa using base
  | cons op rest ih =>
    simp only [List.foldl_cons]
    exact ih _ (lbStep_inv base op)

/-- C7: after any interleaving of `append` calls totalling `B` bytes and
successful `next_line` calls consuming `C` bytes (line bytes plus
delimiters), `pending()` returns exactly `B - C`; and compaction never
changes the pending count. -/
theorem line_buffer_pending_accounting (ops : List LBOp) :
    conduit_line_buffer_pending (lbRun ops).buf + (lbRun ops).consumed =
      (lbRun ops).appended ∧
    ∀ b : LineBuffer,
      conduit_line_buffer_pending (maybe_compact b) = conduit_line_buffer_pending b := by
  refine ⟨(lbRun_inv ops).2, ?_⟩
  intro b
  rw [pending_eq_pendContent, pending_eq_pendContent, maybe_compact_pendContent]

/-! ## C10: next_line output contract -/

/-- C10: when the pending region contains a delimiter at index `i` (so
the next line has `i` bytes), a call with `line_out_capacity ≤ i` returns
0 and leaves the buffer untouched — capacity exactly equal to the line
length is refused — and a call with `i < line_out_capacity` succeeds and
writes exactly the line bytes followed by a NUL terminator. -/
theorem line_buffer_next_line_capacity (buf : LineBuffer) (cap i : Nat)
    (hi : earliestNewline (pendContent buf) = some i) :
    (cap ≤ i → conduit_line_buffer_next_line buf cap = (false, [], buf)) ∧
    (i < cap →
      (conduit_line_buffer_next_line buf cap).1 = true ∧
      (conduit_line_buffer_next_line buf cap).2.1 =
        (pendContent buf).take i ++ [Char.ofNat 0]) := by
  rw [next_line_eq_some buf cap i hi]
  constructor
  · intro hcap
    rw [if_pos (by omega)]
  · intro hcap
    rw [if_neg (by omega)]
    exact ⟨rfl, rfl⟩

/-- C10 (witness): with pending bytes `ab\ncd` the line has 2 bytes; a
call with capacity 2 is refused leaving the buffer untouched, and a call
with capacity 10 succeeds writing `ab` plus a NUL terminator. -/
theorem line_buffer_next_line_capacity_witness :
    (conduit_line_buffer_next_line
        { data := "ab\ncd".toList, read_pos := 0, capacity := 256 } 2 =
      (false, [], { data := "ab\ncd".toList, read_pos := 0, capacity := 256 })) ∧
    (conduit_line_buffer_next_line
        { data := "ab\ncd".toList, read_pos := 0, capacity := 256 } 10).2.1 =
      ['a', 'b', Char.ofNat 0] := by
  have h2 := line_buffer_next_line_capacity
    { data := "ab\ncd".toList, read_pos := 0, capacity := 256 } 2 2 (by decide)
  have h10 := line_buffer_next_line_capacity
    { data := "ab\ncd".toList, read_pos := 0, capacity := 256 } 10 2 (by decide)
  refine ⟨h2.1 (by omega), ?_⟩
  rw [(h10.2 (by omega)).2]
  decide

/-! ## C8: batched cosine refines single cosine -/

theorem cosineLoop_components {F : Type} [LinearOrderedField F]
    (a b : Nat → F) (n : Nat) :
    cosineLoop a b n =
      ((batchInnerLoop a b n).1, batchQueryNormSq a n, (batchInnerLoop a b n).2) := by
  induction n with
  | zero => rfl
  | succ m ih =>
    unfold cosineLoop batchInnerLoop batchQueryNormSq at *
    rw [List.range_succ, List.foldl_append, List.foldl_append, List.foldl_append, ih]
    simp

theorem batchQueryNormSq_nonneg {F : Type} [LinearOrderedField F]
    (q : Nat → F) (dim : Nat) : 0 ≤ batchQueryNormSq q dim := by
  induction dim with
  | zero => simp [batchQueryNormSq]
  | succ m ih =>
    unfold batchQueryNormSq at *
    rw [List.range_succ, List.foldl_append]
    simp only [List.foldl_cons, List.foldl_nil]
    exact add_nonneg ih (mul_self_nonneg _)

theorem batchInnerLoop_snd {F : Type} [LinearOrderedField F]
    (q vec : Nat → F) (dim : Nat) :
    (batchInnerLoop q vec dim).2 = batchQueryNormSq vec dim := by
  induction dim with
  | zero => rfl
  | succ m ih =>
    unfold batchInnerLoop batchQueryNormSq at *
    rw [List.range_succ, List.foldl_append, List.foldl_append]
    simp only [List.foldl_cons, List.foldl_nil, ih]

/-- C8: for `dim ≥ 1`, `count ≥ 1` and `v < count`, the value the batch
kernel stores in `results[v]` equals `conduit_cosine_similarity` applied
to the query and the `v`-th stride-`dim` vector, including the zero-norm
conventions.  The `float` arithmetic is abstracted to a linear ordered
field with a square root `s` that is nonnegative on nonnegative
arguments. -/
theorem cosine_batch_refines_single {F : Type} [LinearOrderedField F]
    (s : F → F) (hs : ∀ x : F, 0 ≤ x → 0 ≤ s x)
    (query vectors : Nat → F) (dimensions count v : Nat)
    (hdim : 1 ≤ dimensions) (hcount : 1 ≤ count) (hv : v < count) :
    conduit_cosine_similarity_batch s query vectors dimensions count v =
      conduit_cosine_similarity s query (fun i => vectors (v * dimensions + i))
        dimensions := by
  simp only [conduit_cosine_similarity_batch, conduit_cosine_similarity]
  rw [if_neg (by omega : ¬(dimensions = 0 ∨ count = 0)),
      if_neg (by omega : ¬dimensions = 0)]
  rw [cosineLoop_components query (fun i => vectors (v * dimensions + i)) dimensions]
  dsimp only
  rw [batchInnerLoop_snd]
  have hqn0 : 0 ≤ s (batchQueryNormSq query dimensions) :=
    hs _ (batchQueryNormSq_nonneg _ _)
  have hvn0 : 0 ≤ s (batchQueryNormSq (fun i => vectors (v * dimensions + i)) dimensions) :=
    hs _ (batchQueryNormSq_nonneg _ _)
  by_cases hq : s (batchQueryNormSq query dimensions) = 0
  · rw [if_pos hq, hq, zero_mul, if_neg (lt_irrefl 0)]
  · rw [if_neg hq]
    have hqpos : 0 < s (batchQueryNormSq query dimensions) :=
      lt_of_le_of_ne hqn0 (Ne.symm hq)
    by_cases hvp : s (batchQueryNormSq (fun i => vectors (v * dimensions + i)) dimensions) > 0
    · rw [if_pos hvp, if_pos (mul_pos hqpos hvp)]
    · rw [if_neg hvp]
      have hv0 : s (batchQueryNormSq (fun i => vectors (v * dimensions + i)) dimensions) = 0 :=
        le_antisymm (not_lt.mp hvp) hvn0
      rw [hv0, mul_zero, if_neg (lt_irrefl 0)]

/-- C8 (witness): concrete instantiation over `ℚ` with `s = id`,
`query = 1`, a constant vector array, `dim = 2`, `count = 2`, `v = 1`. -/
theorem cosine_batch_refines_single_witness :
    conduit_cosine_similarity_batch (fun x : ℚ => x) (fun _ => 1) (fun _ => 1) 2 2 1 =
      conduit_cosine_similarity (fun x : ℚ => x) (fun _ => 1)
        (fun i => (fun _ => (1 : ℚ)) (1 * 2 + i)) 2 := by
  exact cosine_batch_refines_single (fun x => x) (fun x h => h)
    (fun _ => 1) (fun _ => 1) 2 2 1 (by omega) (by omega) (by omega)

/-! ## SSE parser lemmas (C3, C9) -/

theorem dispatch_state (p : SseState) :
    (dispatch_if_needed p).1 = reset_current_event p := by
  simp only [dispatch_if_needed]
  split <;> rfl

theorem dispatch_events {p : SseState} {e : SseEvent}
    (h : e ∈ (dispatch_if_needed p).2) :
    e.id = (if p.has_id then some p.current_id else none) ∧
    e.event = (if p.has_event then some p.current_event else none) ∧
    e.data = p.current_data ∧
    e.retry = p.current_retry ∧
    ¬(p.current_data.length = 0 ∧ ¬p.has_id ∧ ¬p.has_event ∧ ¬p.has_data) := by
  simp only [dispatch_if_needed] at h
  split at h
  · exact absurd h (by simp)
  · rename_i hcond
    have he : e = { id := if p.has_id then some p.current_id else none,
                    event := if p.has_event then some p.current_event else none,
                    data := p.current_data, retry := p.current_retry } := by
      simpa using h
    subst he
    exact ⟨rfl, rfl, rfl, rfl, hcond⟩

theorem ingest_blank (p : SseState) (l : List Char)
    (hb : (normalizeLine l).length = 0) :
    conduit_sse_ingest_line p l = dispatch_if_needed p := by
  simp only [conduit_sse_ingest_line]
  rw [if_pos hb]

/-- Behaviour of a non-blank ingested line: no event is dispatched, the
retry field evolves by `retryUpdate`, and `has_data` is set exactly by
data-field lines. -/
theorem ingest_nonblank (p : SseState) (l : List Char)
    (hb : ¬(normalizeLine l).length = 0) :
    (conduit_sse_ingest_line p l).2 = [] ∧
    (conduit_sse_ingest_line p l).1.current_retry = retryUpdate p.current_retry l ∧
    ((conduit_sse_ingest_line p l).1.has_data = true ↔
      (p.has_data = true ∨ isDataLine l = true)) := by
  simp only [conduit_sse_ingest_line, retryUpdate, isDataLine]
  rw [if_neg hb]
  by_cases hcm : (normalizeLine l).head? = some ':'
  · rw [if_pos hcm]
    rw [if_neg hb, if_pos hcm]
    simp [hb, hcm]
  · rw [if_neg hcm]
    rw [if_neg hb, if_neg hcm]
    by_cases hfe : fieldOf (normalizeLine l) = "event".toList
    · rw [if_pos hfe]
      have hfr : ¬fieldOf (normalizeLine l) = "retry".toList := by
        rw [hfe]; decide
      have hfd : ¬fieldOf (normalizeLine l) = "data".toList := by
        rw [hfe]; decide
      rw [if_neg hfr]
      (simp [hb, hcm, hfd]; try (intro hcon; exact absurd hcon (by simpa using hfd)))
    · rw [if_neg hfe]
      by_cases hfd : fieldOf (normalizeLine l) = "data".toList
      · rw [if_pos hfd]
        have hfr : ¬fieldOf (normalizeLine l) = "retry".toList := by
          rw [hfd]; decide
        rw [if_neg hfr]
        (simp [hb, hcm, hfd]; try (intro hcon; exact absurd hcon (by simpa using hfd)))
      · rw [if_neg hfd]
        by_cases hfi : fieldOf (normalizeLine l) = "id".toList
        · rw [if_pos hfi]
          have hfr : ¬fieldOf (normalizeLine l) = "retry".toList := by
            rw [hfi]; decide
          rw [if_neg hfr]
          split
          · (simp [hb, hcm, hfd]; try (intro hcon; exact absurd hcon (by simpa using hfd)))
          · (simp [hb, hcm, hfd]; try (intro hcon; exact absurd hcon (by simpa using hfd)))
        · rw [if_neg hfi]
          by_cases hfr : fieldOf (normalizeLine l) = "retry".toList
          · rw [if_pos hfr, if_pos hfr]
            split
            · (simp [hb, hcm, hfd]; try (intro hcon; exact absurd hcon (by simpa using hfd)))
            · (simp [hb, hcm, hfd]; try (intro hcon; exact absurd hcon (by simpa using hfd)))
          · rw [if_neg hfr, if_neg hfr]
            (simp [hb, hcm, hfd]; try (intro hcon; exact absurd hcon (by simpa using hfd)))

theorem blockRetry_append (bs : List (List Char)) (l : List Char) :
    blockRetry (bs ++ [l]) = retryUpdate (blockRetry bs) l := by
  simp [blockRetry, List.foldl_append]

/-- The combined run invariant for the SSE claims: `current_retry`
tracks the retry lines of the current block, `has_data` witnesses a data
line in the current block, and every recorded event satisfies both the
amended non-emptiness property and the retry-framing property. -/
def gInv (g : SseGRun) : Prop :=
  g.st.current_retry = blockRetry g.block ∧
  (g.st.has_data = true → ∃ l ∈ g.block, isDataLine l = true) ∧
  ∀ eb ∈ g.events,
    (eb.1.data ≠ [] ∨ eb.1.id ≠ none ∨ eb.1.event ≠ none ∨
      ∃ l ∈ eb.2, isDataLine l = true) ∧
    eb.1.retry = blockRetry eb.2

theorem gStep_inv {g : SseGRun} (h : gInv g) (op : SseOp) : gInv (sseGStep g op) := by
  obtain ⟨hret, hdata, hevents⟩ := h
  cases op with
  | line l =>
    by_cases hb : (normalizeLine l).length = 0
    · -- blank line: dispatch and reset
      have hblank : isBlankLine l = true := by
        simp [isBlankLine, hb]
      simp only [sseGStep, ingest_blank g.st l hb, hblank, if_true]
      refine ⟨?_, ?_, ?_⟩
      · rw [dispatch_state]
        rfl
      · rw [dispatch_state]
        intro hcon
        exact absurd hcon (by simp [reset_current_event])
      · intro eb heb
        rw [List.mem_append] at heb
        cases heb with
        | inl hold => exact hevents eb hold
        | inr hnew =>
          rw [List.mem_map] at hnew
          obtain ⟨e, he, rfl⟩ := hnew
          obtain ⟨hid, hev, hdat, hrt, hnot⟩ := dispatch_events he
          constructor
          · by_cases h1 : e.data = []
            · by_cases h2 : e.id = none
              · by_cases h3 : e.event = none
                · -- all empty: the dispatch guard forces has_data
                  right; right; right
                  have hidf : g.st.has_id = false := by
                    by_contra hcid
                    rw [if_pos (by simpa using (Bool.of_not_eq_false hcid))] at hid
                    rw [hid] at h2
                    exact Option.noConfusion h2
                  have hevf : g.st.has_event = false := by
                    by_contra hcev
                    rw [if_pos (by simpa using (Bool.of_not_eq_false hcev))] at hev
                    rw [hev] at h3
                    exact Option.noConfusion h3
                  have hde : g.st.current_data = [] := by
                    rw [← hdat]; exact h1
                  have hhd : g.st.has_data = true := by
                    by_contra hcd
                    exact hnot ⟨by simp [hde], by simp [hidf], by simp [hevf],
                      by simp [Bool.of_not_eq_true hcd]⟩
                  exact hdata hhd
                · right; right; left; exact h3
              · right; left; exact h2
            · left; exact h1
          · rw [hrt, hret]
    · -- non-blank line: no dispatch, block grows
      have hblank : isBlankLine l = false := by
        simp [isBlankLine, hb]
      obtain ⟨hev2, hrt2, hhd⟩ := ingest_nonblank g.st l hb
      simp only [sseGStep, hblank, if_false, Bool.false_eq_true]
      refine ⟨?_, ?_, ?_⟩
      · rw [hrt2, hret, blockRetry_append]
      · intro hcon
        rcases hhd.mp hcon with hold | hnewl
        · obtain ⟨l', hl', hdl'⟩ := hdata hold
          exact ⟨l', by simp [hl'], hdl'⟩
        · exact ⟨l, by simp, hnewl⟩
      · intro eb heb
        rw [hev2] at heb
        simp only [List.map_nil, List.append_nil] at heb
        exact hevents eb heb
  | finish =>
    by_cases hc : g.st.current_data.length > 0 ∨ g.st.has_id = true ∨ g.st.has_event = true
    · have hfin : conduit_sse_finish g.st = dispatch_if_needed g.st := by
        simp only [conduit_sse_finish]
        rw [if_pos (by simpa using hc)]
      simp only [sseGStep, hfin]
      rw [if_pos (by simpa using hc)]
      refine ⟨?_, ?_, ?_⟩
      · rw [dispatch_state]
        rfl
      · rw [dispatch_state]
        intro hcon
        exact absurd hcon (by simp [reset_current_event])
      · intro eb heb
        rw [List.mem_append] at heb
        cases heb with
        | inl hold => exact hevents eb hold
        | inr hnew =>
          rw [List.mem_map] at hnew
          obtain ⟨e, he, rfl⟩ := hnew
          obtain ⟨hid, hev, hdat, hrt, _⟩ := dispatch_events he
          constructor
          · rcases hc with hd | hi | hevt
            · left
              rw [hdat]
              intro hcon
              rw [hcon] at hd
              simp at hd
            · right; left
              rw [hid, if_pos hi]
              simp
            · right; right; left
              rw [hev, if_pos hevt]
              simp
          · rw [hrt, hret]
    · have hfin : conduit_sse_finish g.st = (g.st, []) := by
        simp only [conduit_sse_finish]
        rw [if_neg (by simpa using hc)]
      simp only [sseGStep, hfin]
      rw [if_neg (by simpa using hc)]
      exact ⟨hret, hdata, by
        intro eb heb
        simp only [List.map_nil, List.append_nil] at heb
        exact hevents eb heb⟩

theorem gRun_inv (ops : List SseOp) : gInv (sseGRunF ops) := by
  have base : gInv sseGInit := by
    refine ⟨rfl, ?_, ?_⟩
    · intro hcon
      exact absurd hcon (by simp [sseGInit, conduit_sse_parser_create])
    · intro eb heb
      exact absurd heb (by simp [sseGInit])
  unfold sseGRunF
  generalize sseGInit = g0 at base ⊢
  induction ops generalizing g0 with
  | nil => simpa using base
  | cons op rest ih =>
    simp only [List.foldl_cons]
    exact ih _ (gStep_inv base op)

theorem map_fst_pair {A B : Type} (blk : B) (evs : List A) :
    List.map (Prod.fst ∘ fun e => (e, blk)) evs = evs := by
  induction evs with
  | nil => rfl
  | cons a t ih => simp only [List.map_cons, ih, Function.comp_apply]

/-- The instrumented run erases to the plain run: same final state, same
dispatched events in order. -/
theorem sseRun_eq_erase (ops : List SseOp) :
    sseRun ops = ((sseGRunF ops).st, (sseGRunF ops).events.map Prod.fst) := by
  have key : ∀ (ops : List SseOp) (g : SseGRun) (s : SseState × List SseEvent),
      s.1 = g.st → s.2 = g.events.map Prod.fst →
      (ops.foldl sseStepP s).1 = (ops.foldl sseGStep g).st ∧
      (ops.foldl sseStepP s).2 = (ops.foldl sseGStep g).events.map Prod.fst := by
    intro ops
    induction ops with
    | nil => intro g s h1 h2; exact ⟨h1, h2⟩
    | cons op rest ih =>
      intro g s h1 h2
      apply ih
      · cases op with
        | line l => simp [sseStepP, sseGStep, h1]
        | finish => simp [sseStepP, sseGStep, h1]
      · cases op with
        | line l => simp [sseStepP, sseGStep, h1, h2, map_fst_pair]
        | finish => simp [sseStepP, sseGStep, h1, h2, map_fst_pair]
  obtain ⟨h1, h2⟩ := key ops sseGInit (conduit_sse_parser_create, []) rfl rfl
  exact Prod.ext h1 h2

/-- C3 (amended): every event passed to the dispatch callback has
non-empty `data`, or a non-NULL `id`, or a non-NULL `event`, or was
dispatched from a block containing a `data` field line (whose value was
empty); only such a line can set `has_data` while leaving `current_data`
empty. -/
theorem sse_dispatch_nonempty_amended (ops : List SseOp) (e : SseEvent)
    (bs : List (List Char)) (h : (e, bs) ∈ (sseGRunF ops).events) :
    e.data ≠ [] ∨ e.id ≠ none ∨ e.event ≠ none ∨ ∃ l ∈ bs, isDataLine l = true :=
  ((gRun_inv ops).2.2 (e, bs) h).1

/-- C3 (witness): the run `data: hi`, blank line dispatches the event
with data `hi`, which satisfies the amended property. -/
theorem sse_dispatch_nonempty_amended_witness :
    (({ id := none, event := none, data := "hi".toList, retry := -1 : SseEvent},
        [("data: hi".toList : List Char)]) ∈
      (sseGRunF [SseOp.line ("data: hi".toList), SseOp.line []]).events) ∧
    ("hi".toList ≠ [] ∨
      ({ id := none, event := none, data := "hi".toList, retry := -1 : SseEvent}).id ≠ none ∨
      ({ id := none, event := none, data := "hi".toList, retry := -1 : SseEvent}).event ≠ none ∨
      ∃ l ∈ [("data: hi".toList : List Char)], isDataLine l = true) :=
  ⟨by decide,
    sse_dispatch_nonempty_amended [SseOp.line ("data: hi".toList), SseOp.line []]
      { id := none, event := none, data := "hi".toList, retry := -1 }
      [("data: hi".toList : List Char)] (by decide)⟩

/-- C9: the retry value of every dispatched event is exactly the value
accumulated by the retry lines of its own block starting from the reset
value `-1` (so a retry set in one block is reported only in that block's
event, and is `-1` otherwise), and every dispatch resets the current
fields, flags and `current_retry` while preserving `last_event_id` and
`reconnection_time`. -/
theorem sse_retry_frame :
    (∀ (ops : List SseOp) (e : SseEvent) (bs : List (List Char)),
      (e, bs) ∈ (sseGRunF ops).events → e.retry = blockRetry bs) ∧
    (∀ p : SseState,
      (dispatch_if_needed p).1.current_retry = -1 ∧
      (dispatch_if_needed p).1.has_id = false ∧
      (dispatch_if_needed p).1.has_event = false ∧
      (dispatch_if_needed p).1.has_data = false ∧
      (dispatch_if_needed p).1.current_id = [] ∧
      (dispatch_if_needed p).1.current_event = [] ∧
      (dispatch_if_needed p).1.current_data = [] ∧
      (dispatch_if_needed p).1.last_event_id = p.last_event_id ∧
      (dispatch_if_needed p).1.reconnection_time = p.reconnection_time) := by
  constructor
  · intro ops e bs h
    exact ((gRun_inv ops).2.2 (e, bs) h).2
  · intro p
    rw [dispatch_state]
    exact ⟨rfl, rfl, rfl, rfl, rfl, rfl, rfl, rfl, rfl⟩

/-- C9 (witness): in the run `retry: 5000`, `data: x`, blank line, the
dispatched event reports retry 5000, which is the block's accumulated
retry value. -/
theorem sse_retry_frame_witness :
    (({ id := none, event := none, data := "x".toList, retry := 5000 : SseEvent},
        [("retry: 5000".toList : List Char), ("data: x".toList : List Char)]) ∈
      (sseGRunF [SseOp.line ("retry: 5000".toList), SseOp.line ("data: x".toList),
        SseOp.line []]).events) ∧
    (5000 : Int) = blockRetry [("retry: 5000".toList : List Char),
        ("data: x".toList : List Char)] :=
  ⟨by decide,
    sse_retry_frame.1 [SseOp.line ("retry: 5000".toList), SseOp.line ("data: x".toList),
        SseOp.line []]
      { id := none, event := none, data := "x".toList, retry := 5000 }
      [("retry: 5000".toList : List Char), ("data: x".toList : List Char)] (by decide)⟩

/-! ## Completer bounds (C2) -/

theorem takeWhile_len_le (p : Char → Bool) (l : List Char) :
    (l.takeWhile p).length ≤ l.length := by
  induction l with
  | nil => simp
  | cons a t ih =>
    rw [List.takeWhile_cons]
    split
    · simp only [List.length_cons]
      omega
    · simp

theorem skip_ws_le {json : List Char} {pos : Nat} (h : pos ≤ json.length) :
    skip_ws json pos ≤ json.length := by
  unfold skip_ws
  have h1 := takeWhile_len_le isJsonWs (json.drop pos)
  rw [List.length_drop] at h1
  omega

theorem skip_ws_ge (json : List Char) (pos : Nat) : pos ≤ skip_ws json pos := by
  unfold skip_ws
  omega

theorem strScanEnd_le (l : List Char) (e : Bool) : strScanEnd l e ≤ l.length := by
  induction l generalizing e with
  | nil => simp [strScanEnd]
  | cons c rest ih =>
    unfold strScanEnd
    split
    · have := ih (!e)
      simp only [List.length_cons]
      omega
    · split
      · simp
      · have := ih false
        simp only [List.length_cons]
        omega

theorem bracketScan_le (oc cc : Char) (l : List Char) (lv : Int) (i e : Bool) :
    bracketScan oc cc l lv i e ≤ l.length := by
  induction l generalizing lv i e with
  | nil => simp [bracketScan]
  | cons c rest ih =>
    unfold bracketScan
    simp only [List.length_cons]
    split
    · split
      · have := ih lv i (!e); omega
      · split
        · have := ih lv false false; omega
        · have := ih lv i false; omega
    · split
      · have := ih lv true false; omega
      · split
        · have := ih (lv + 1) false false; omega
        · split
          · split
            · omega
            · have := ih (lv - 1) false false; omega
          · have := ih lv false false; omega

theorem kwMatched_le {av kw : List Char} {m : Nat}
    (h : kwMatched av kw = some m) : m ≤ av.length := by
  induction av generalizing kw m with
  | nil =>
    unfold kwMatched at h
    have : m = 0 := by
      cases kw <;> simpa using (Option.some.inj h).symm
    omega
  | cons a ar ih =>
    cases kw with
    | nil =>
      unfold kwMatched at h
      have : m = 0 := (Option.some.inj h).symm
      omega
    | cons k kr =>
      unfold kwMatched at h
      split at h
      · rw [Option.map_eq_some'] at h
        obtain ⟨m', hm', rfl⟩ := h
        have := ih hm'
        simp only [List.length_cons]
        omega
      · exact absurd h (by simp)

theorem complete_string_le (json : List Char) (pos : Nat) :
    (complete_string json pos).end_offset ≤ json.length := by
  unfold complete_string
  split
  · simp [noCompletion]
  · split
    · simp [noCompletion]
    · simp

theorem complete_number_le {json : List Char} {pos : Nat} (h : pos ≤ json.length) :
    (complete_number json pos).end_offset ≤ json.length := by
  unfold complete_number
  dsimp only
  have hc0 : (if json.get? pos = some '-' then pos + 1 else pos) ≤ json.length := by
    split
    · rename_i hm
      have := get?_lt_length hm
      omega
    · exact h
  generalize hg0 : (if json.get? pos = some '-' then pos + 1 else pos) = cur0 at hc0 ⊢
  have htw := takeWhile_len_le isDigitCh (json.drop cur0)
  rw [List.length_drop] at htw
  split
  · dsimp only
    omega
  · split
    · dsimp only
      omega
    · split
      · -- afterInt = none: decimal point with no fraction digits
        rename_i heq
        split at heq
        · rename_i hdot
          have hlt := get?_lt_length hdot
          dsimp only
          omega
        · exact absurd heq (by simp)
      · rename_i cur2 heq
        have hc2 : cur2 ≤ json.length := by
          split at heq
          · rename_i hdot
            have hlt := get?_lt_length hdot
            have htw2 := takeWhile_len_le isDigitCh
              (json.drop (cur0 + (List.takeWhile isDigitCh (List.drop cur0 json)).length + 1))
            rw [List.length_drop] at htw2
            split at heq
            · exact absurd heq (by simp)
            · have := Option.some.inj heq
              omega
          · have := Option.some.inj heq
            omega
        split
        · rename_i hexp
          have hc2lt : cur2 < json.length := by
            cases hexp with
            | inl h1 => exact get?_lt_length h1
            | inr h1 => exact get?_lt_length h1
          split
          · rename_i hsign
            have hlt2 : cur2 + 1 < json.length := by
              cases hsign with
              | inl h1 => exact get?_lt_length h1
              | inr h1 => exact get?_lt_length h1
            split
            · dsimp only
              omega
            · simp [noCompletion]
          · split
            · dsimp only
              omega
            · simp [noCompletion]
        · simp [noCompletion]

theorem complete_special_le {json : List Char} {pos : Nat} (kw : List Char)
    (h : pos ≤ json.length) :
    (complete_special json pos kw).end_offset ≤ json.length := by
  unfold complete_special
  cases hm : kwMatched (json.drop pos) kw with
  | none => simp [noCompletion]
  | some m =>
    have hle := kwMatched_le hm
    rw [List.length_drop] at hle
    show (if m = kw.length then noCompletion
      else { found := true, suffix := kw.drop m, end_offset := pos + m }).end_offset ≤
        json.length
    by_cases hm2 : m = kw.length
    · rw [if_pos hm2]
      simp [noCompletion]
    · rw [if_neg hm2]
      show pos + m ≤ json.length
      omega

set_option maxHeartbeats 1600000 in
/-- Every `end_offset` produced by the completer recursion stays within
the input, for any fuel. -/
theorem completer_le (fuel : Nat) :
    (∀ (json : List Char) (pos : Nat) (d m : Int), pos ≤ json.length →
      (complete_value fuel json pos d m).end_offset ≤ json.length) ∧
    (∀ (json : List Char) (pos : Nat) (d m : Int), pos ≤ json.length →
      (complete_array fuel json pos d m).end_offset ≤ json.length) ∧
    (∀ (json : List Char) (cur : Nat) (req : Bool) (lv : Nat) (d m : Int),
      cur ≤ json.length → lv ≤ json.length →
      (arrayLoop fuel json cur req lv d m).end_offset ≤ json.length) ∧
    (∀ (json : List Char) (pos : Nat) (d m : Int), pos ≤ json.length →
      (complete_object fuel json pos d m).end_offset ≤ json.length) ∧
    (∀ (json : List Char) (cur : Nat) (req : Bool) (lv : Nat) (d m : Int),
      cur ≤ json.length → lv ≤ json.length →
      (objectLoop fuel json cur req lv d m).end_offset ≤ json.length) ∧
    (∀ (json : List Char) (pos : Nat) (m : Int), pos ≤ json.length →
      find_end_of_complete_value fuel json pos m ≤ json.length) := by
  induction fuel with
  | zero =>
    refine ⟨?_, ?_, ?_, ?_, ?_, ?_⟩
    · intro json pos d m h
      show (noCompletion).end_offset ≤ json.length
      simp [noCompletion]
    · intro json pos d m h
      show (noCompletion).end_offset ≤ json.length
      simp [noCompletion]
    · intro json cur req lv d m h1 h2
      show (noCompletion).end_offset ≤ json.length
      simp [noCompletion]
    · intro json pos d m h
      show (noCompletion).end_offset ≤ json.length
      simp [noCompletion]
    · intro json cur req lv d m h1 h2
      show (noCompletion).end_offset ≤ json.length
      simp [noCompletion]
    · intro json pos m h
      show pos ≤ json.length
      exact h
  | succ f ih =>
    obtain ⟨ihv, iha, ihal, iho, ihol, ihf⟩ := ih
    refine ⟨?_, ?_, ?_, ?_, ?_, ?_⟩
    · -- complete_value
      intro json pos d m hpos
      unfold complete_value
      dsimp only
      split
      · simp [noCompletion]
      · have hsw := skip_ws_le hpos
        split
        · simp [noCompletion]
        · split
          · exact iho json _ d m hsw
          · split
            · exact iha json _ d m hsw
            · split
              · exact complete_string_le json _
              · split
                · exact complete_special_le _ hsw
                · split
                  · exact complete_special_le _ hsw
                  · split
                    · exact complete_special_le _ hsw
                    · split
                      · exact complete_number_le hsw
                      · simp [noCompletion]
    · -- complete_array
      intro json pos d m hpos
      unfold complete_array
      dsimp only
      split
      · simp [noCompletion]
      · rename_i hbr
        rw [Decidable.not_not] at hbr
        have hlt : pos < json.length := get?_lt_length hbr
        have h1 : pos + 1 ≤ json.length := by omega
        have hsw := skip_ws_le h1
        split
        · dsimp only
          omega
        · exact ihal json _ false (pos + 1) d m hsw h1
    · -- arrayLoop
      intro json cur req lv d m hcur hlv
      unfold arrayLoop
      dsimp only
      split
      · dsimp only
        omega
      · split
        · simp [noCompletion]
        · rename_i hne hnbr
          have hclt : cur < json.length := by omega
          split
          · split
            · rename_i hcomma
              have hsw := skip_ws_le (by omega : cur + 1 ≤ json.length)
              split
              · dsimp only
                omega
              · exact ihal json _ false _ d m hsw hsw
            · dsimp only
              omega
          · split
            · split
              · dsimp only
                exact ihv json cur (d + 1) m hcur
              · dsimp only
                exact ihv json cur (d + 1) m hcur
            · have he := ihf json cur m hcur
              exact ihal json _ true _ d m he he
    · -- complete_object
      intro json pos d m hpos
      unfold complete_object
      dsimp only
      split
      · simp [noCompletion]
      · rename_i hbr
        rw [Decidable.not_not] at hbr
        have hlt : pos < json.length := get?_lt_length hbr
        have h1 : pos + 1 ≤ json.length := by omega
        have hsw := skip_ws_le h1
        split
        · dsimp only
          omega
        · exact ihol json _ false (pos + 1) d m hsw h1
    · -- objectLoop
      intro json cur req lv d m hcur hlv
      unfold objectLoop
      dsimp only
      split
      · dsimp only
        omega
      · split
        · simp [noCompletion]
        · rename_i hne hnbr
          have hclt : cur < json.length := by omega
          split
          · split
            · rename_i hcomma
              have hsw := skip_ws_le (by omega : cur + 1 ≤ json.length)
              split
              · dsimp only
                omega
              · exact ihol json _ false _ d m hsw hsw
            · dsimp only
              omega
          · split
            · split
              · dsimp only
                have := complete_string_le json cur
                omega
              · dsimp only
                have := complete_string_le json cur
                omega
            · have hke := ihf json cur m hcur
              split
              · dsimp only
                omega
              · rename_i hkgt
                have hsw3 := skip_ws_le hke
                split
                · dsimp only
                  omega
                · rename_i hcolon
                  push_neg at hcolon
                  have hc3lt : skip_ws json (find_end_of_complete_value f json cur m)
                      < json.length := get?_lt_length hcolon.2
                  have hsw4 := skip_ws_le (by omega :
                    skip_ws json (find_end_of_complete_value f json cur m) + 1 ≤ json.length)
                  split
                  · dsimp only
                    omega
                  · split
                    · split
                      · dsimp only
                        exact ihv json _ (d + 1) m hsw4
                      · dsimp only
                        exact ihv json _ (d + 1) m hsw4
                    · have hve := ihf json _ m hsw4
                      exact ihol json _ true _ d m hve hve
    · -- find_end_of_complete_value
      intro json pos m hpos
      unfold find_end_of_complete_value
      dsimp only
      have hsw := skip_ws_le hpos
      split
      · exact hsw
      · split
        · exact ihv json _ 0 m hsw
        · split
          · rename_i hq
            have h1 := strScanEnd_le (json.drop (skip_ws json pos + 1)) false
            rw [List.length_drop] at h1
            have hlt := get?_lt_length hq
            omega
          · have h1 := bracketScan_le '{' '}' (json.drop (skip_ws json pos)) 0 false false
            rw [List.length_drop] at h1
            omega
          · have h1 := bracketScan_le '[' ']' (json.drop (skip_ws json pos)) 0 false false
            rw [List.length_drop] at h1
            omega
          · split
            · rename_i htr
              have h1 := congrArg List.length htr
              simp only [List.length_take, List.length_drop] at h1
              have h2 : (("true".toList : List Char)).length = 4 := rfl
              rw [h2] at h1
              omega
            · exact hsw
          · split
            · rename_i htr
              have h1 := congrArg List.length htr
              simp only [List.length_take, List.length_drop] at h1
              have h2 : (("false".toList : List Char)).length = 5 := rfl
              rw [h2] at h1
              omega
            · exact hsw
          · split
            · rename_i htr
              have h1 := congrArg List.length htr
              simp only [List.length_take, List.length_drop] at h1
              have h2 : (("null".toList : List Char)).length = 4 := rfl
              rw [h2] at h1
              omega
            · exact hsw
          · split
            · have h1 := takeWhile_len_le isNumClass (json.drop (skip_ws json pos))
              rw [List.length_drop] at h1
              omega
            · exact hsw
          · exact hsw

/-- C2 (amended): the completer's I/O contract.  When the recursion
reports `found = true`, `conduit_json_complete` (given sufficient
capacity) writes exactly `input[0 .. end_offset]` followed by the
computed suffix, with `end_offset ≤ input length`, and returns that total
length; when it reports `found = false` it returns 0 with empty output.
(Syntactic validity is guaranteed in neither direction; see the
counterexample.) -/
theorem json_complete_io_contract (input : List Char) (output_capacity : Nat)
    (max_depth : Int) (hcap1 : 1 ≤ output_capacity) (hne : input ≠ []) :
    ((complete_value (completeFuel input) input 0 0
        (if max_depth < 1 then 64 else max_depth)).found = true →
      (complete_value (completeFuel input) input 0 0
        (if max_depth < 1 then 64 else max_depth)).end_offset ≤ input.length ∧
      ((complete_value (completeFuel input) input 0 0
          (if max_depth < 1 then 64 else max_depth)).end_offset +
        (complete_value (completeFuel input) input 0 0
          (if max_depth < 1 then 64 else max_depth)).suffix.length + 1 ≤ output_capacity →
        conduit_json_complete input output_capacity max_depth =
          (Int.ofNat ((complete_value (completeFuel input) input 0 0
              (if max_depth < 1 then 64 else max_depth)).end_offset +
            (complete_value (completeFuel input) input 0 0
              (if max_depth < 1 then 64 else max_depth)).suffix.length),
           input.take (complete_value (completeFuel input) input 0 0
              (if max_depth < 1 then 64 else max_depth)).end_offset ++
             (complete_value (completeFuel input) input 0 0
              (if max_depth < 1 then 64 else max_depth)).suffix))) ∧
    ((complete_value (completeFuel input) input 0 0
        (if max_depth < 1 then 64 else max_depth)).found = false →
      conduit_json_complete input output_capacity max_depth = (0, [])) := by
  have hlen : ¬input.length = 0 := by
    intro hcon
    exact hne (List.length_eq_zero.mp hcon)
  constructor
  · intro hfound
    constructor
    · exact (completer_le (completeFuel input)).1 input 0 0 _ (by omega)
    · intro hcap2
      unfold conduit_json_complete
      rw [if_neg (by omega), if_neg hlen]
      simp only [hfound]
      rw [if_neg (by simp), if_neg (by omega)]
  · intro hfound
    unfold conduit_json_complete
    rw [if_neg (by omega), if_neg hlen]
    simp only [hfound]
    rw [if_pos (by simp)]

/-- C2 (witness): on input `[1` with capacity 300 the recursion finds
the completion `]` at offset 2 and the entry point outputs `[1]` with
return value 3. -/
theorem json_complete_io_contract_witness :
    (complete_value (completeFuel ("[1".toList)) ("[1".toList) 0 0
        (if (64 : Int) < 1 then 64 else 64)).found = true ∧
    conduit_json_complete ("[1".toList) 300 64 = (3, "[1]".toList) := by
  have h := (json_complete_io_contract ("[1".toList) 300 64 (by omega) (by decide)).1
    (by decide)
  refine ⟨by decide, ?_⟩
  rw [h.2 (by decide)]
  decide

/-! ## C1 (amended): repair totality and empty-input behaviour -/

/-- C1 (amended): whenever the output buffer passes the Phase A
reservation check (`capacity > effective_max + 2` with
`effective_max = min(max(max_depth,1),256)`), `conduit_json_repair`
succeeds — it returns a nonnegative byte count for every input — and for
empty or all-whitespace input the output is exactly `{}` with return
value 2.  (The output is not valid JSON for every input; see the
counterexample.) -/
theorem json_repair_total_amended (input : List Char) (output_capacity : Nat)
    (max_depth : Int)
    (hcap : (if (if max_depth < 1 then 1 else max_depth) < 256
        then (if max_depth < 1 then 1 else max_depth).toNat else 256) + 2
      < output_capacity) :
    0 ≤ (conduit_json_repair input output_capacity max_depth).1 ∧
    ((∀ c ∈ input, isJsonWs c = true) →
      conduit_json_repair input output_capacity max_depth = (2, ['{', '}'])) := by
  have hmd1 : (1 : Int) ≤ if max_depth < 1 then 1 else max_depth := by
    split <;> omega
  have heff1 : 1 ≤ if (if max_depth < 1 then 1 else max_depth) < 256
      then (if max_depth < 1 then 1 else max_depth).toNat else 256 := by
    by_cases h1 : max_depth < 1
    · simp only [if_pos h1]
      norm_num
    · simp only [if_neg h1]
      split <;> omega
  have hcap3 : ¬output_capacity < 3 := by omega
  constructor
  · unfold conduit_json_repair
    rw [if_neg hcap3]
    dsimp only
    split
    · omega
    · rw [if_neg (by omega)]
      dsimp only
      exact Int.ofNat_nonneg _
  · intro hws
    have hdrop : input.dropWhile isJsonWs = [] := List.dropWhile_eq_nil_iff.mpr hws
    unfold conduit_json_repair
    rw [if_neg hcap3]
    dsimp only
    rw [if_pos (by rw [hdrop]; rfl)]

/-- C1 (witness): with `max_depth = 1` and capacity 10 the reservation
check passes; the theorem yields success on `x` and the `{}` output on a
single-space input. -/
theorem json_repair_total_amended_witness :
    0 ≤ (conduit_json_repair ['x'] 10 1).1 ∧
    conduit_json_repair [' '] 10 1 = (2, ['{', '}']) :=
  ⟨(json_repair_total_amended ['x'] 10 1 (by decide)).1,
   (json_repair_total_amended [' '] 10 1 (by decide)).2 (by decide)⟩

/-! ## C4 (amended): line sequence under interleaving -/

theorem splitLinesGo_other (acc : List Char) (c : Char) (rest : List Char)
    (hn : ¬c = '\n') (hr : ¬c = '\r') :
    splitLinesGo acc (c :: rest) = splitLinesGo (acc ++ [c]) rest := by
  cases rest with
  | nil => simp [splitLinesGo, hn, hr]
  | cons d rs => simp [splitLinesGo, hn, hr]

theorem splitLinesGo_lf (acc rest : List Char) :
    splitLinesGo acc ('\n' :: rest) = acc :: splitLinesGo [] rest := by
  cases rest with
  | nil => simp [splitLinesGo]
  | cons d rs => simp [splitLinesGo]

theorem splitLinesGo_crlf (acc rest : List Char) :
    splitLinesGo acc ('\r' :: '\n' :: rest) = acc :: splitLinesGo [] rest := by
  simp [splitLinesGo]

theorem splitLinesGo_cr_other (acc rest : List Char) (h : ¬rest.head? = some '\n') :
    splitLinesGo acc ('\r' :: rest) = acc :: splitLinesGo [] rest := by
  cases rest with
  | nil => simp [splitLinesGo]
  | cons d rs =>
    have hd : ¬d = '\n' := by simpa using h
    simp [splitLinesGo, hd]

theorem splitLinesGo_no_delim (A : List Char)
    (hA : ∀ c ∈ A, ¬(c = '\n' ∨ c = '\r')) (acc rest : List Char) :
    splitLinesGo acc (A ++ rest) = splitLinesGo (acc ++ A) rest := by
  induction A generalizing acc with
  | nil => simp
  | cons a A' ih =>
    have ha := hA a (by simp)
    have hA' : ∀ c ∈ A', ¬(c = '\n' ∨ c = '\r') := fun c hc => hA c (by simp [hc])
    have han : ¬a = '\n' := fun hc => ha (Or.inl hc)
    have har : ¬a = '\r' := fun hc => ha (Or.inr hc)
    rw [List.cons_append, splitLinesGo_other acc a _ han har, ih hA' (acc ++ [a])]
    simp

/-- The key step: splitting `P ++ Q` when the earliest delimiter of `P`
sits at index `i` and is not an un-paired `\r` at the very end of `P`. -/
theorem splitLines_step (P Q : List Char) (i : Nat)
    (hi : earliestNewline P = some i)
    (hsafe : ¬(P.get? i = some '\r' ∧ i + 1 = P.length)) :
    splitLines (P ++ Q) = P.take i :: splitLines (P.drop (consumeCount P i) ++ Q) := by
  obtain ⟨hdel, hmin⟩ := earliestNewline_some hi
  have hlt := earliestNewline_lt hi
  have hdecomp : P = P.take i ++ P.drop i := (List.take_append_drop i P).symm
  have hAnd : ∀ c ∈ P.take i, ¬(c = '\n' ∨ c = '\r') := by
    intro c hc
    rw [List.mem_iff_get?] at hc
    obtain ⟨j, hj⟩ := hc
    have hjlt : j < i := by
      have h2 := get?_lt_length hj
      rw [List.length_take] at h2
      omega
    have hjP : P.get? j = some c := by
      rw [← List.get?_take hjlt]
      exact hj
    intro hcd
    apply hmin j hjlt
    cases hcd with
    | inl h1 => exact Or.inl (by rw [hjP, h1])
    | inr h1 => exact Or.inr (by rw [hjP, h1])
  cases hdel with
  | inl hlf =>
    -- delimiter is LF
    have hdropP : P.drop i = '\n' :: P.drop (i + 1) := by
      have h1 : P[i]? = some '\n' := by rw [← List.get?_eq_getElem?]; exact hlf
      rw [List.getElem?_eq_some] at h1
      obtain ⟨hl, hgl⟩ := h1
      rw [List.drop_eq_getElem_cons hl, hgl]
    have hcc : consumeCount P i = i + 1 := by
      unfold consumeCount
      rw [if_neg (by rw [hlf]; simp)]
    rw [hcc]
    unfold splitLines
    conv_lhs => rw [hdecomp]
    rw [List.append_assoc, splitLinesGo_no_delim _ hAnd, hdropP]
    simp only [List.cons_append, List.nil_append]
    rw [splitLinesGo_lf]
  | inr hcr =>
    -- delimiter is CR
    have hdropP : P.drop i = '\r' :: P.drop (i + 1) := by
      have h1 : P[i]? = some '\r' := by rw [← List.get?_eq_getElem?]; exact hcr
      rw [List.getElem?_eq_some] at h1
      obtain ⟨hl, hgl⟩ := h1
      rw [List.drop_eq_getElem_cons hl, hgl]
    have hne : i + 1 ≠ P.length := fun hcon => hsafe ⟨hcr, hcon⟩
    have hlt1 : i + 1 < P.length := by omega
    obtain ⟨b, hb⟩ : ∃ b, P.get? (i + 1) = some b := by
      cases hx : P.get? (i + 1) with
      | none =>
        rw [List.get?_eq_none] at hx
        omega
      | some y => exact ⟨y, rfl⟩
    have hdropP1 : P.drop (i + 1) = b :: P.drop (i + 2) := by
      have h1 : P[i + 1]? = some b := by rw [← List.get?_eq_getElem?]; exact hb
      rw [List.getElem?_eq_some] at h1
      obtain ⟨hl, hgl⟩ := h1
      rw [List.drop_eq_getElem_cons hl, hgl]
    by_cases hbn : b = '\n'
    · have hcc : consumeCount P i = i + 2 := by
        unfold consumeCount
        rw [if_pos ⟨hcr, by rw [hb, hbn]⟩]
      rw [hcc]
      unfold splitLines
      conv_lhs => rw [hdecomp]
      rw [List.append_assoc, splitLinesGo_no_delim _ hAnd, hdropP, hdropP1, hbn]
      simp only [List.cons_append, List.nil_append]
      rw [splitLinesGo_crlf]
    · have hcc : consumeCount P i = i + 1 := by
        unfold consumeCount
        rw [if_neg (by
          intro hcon
          rw [hb] at hcon
          exact hbn (Option.some.inj hcon.2))]
      rw [hcc]
      unfold splitLines
      conv_lhs => rw [hdecomp]
      rw [List.append_assoc, splitLinesGo_no_delim _ hAnd, hdropP]
      simp only [List.cons_append, List.nil_append]
      have hhead : ¬(P.drop (i + 1) ++ Q).head? = some '\n' := by
        rw [hdropP1]
        simpa using hbn
      rw [splitLinesGo_cr_other _ _ hhead]

/-- C4 side condition: the pending bytes do not end in a `\r` that is
the earliest delimiter (such a `\r` would be consumed before its
possible `\n` partner arrives). -/
def crSafe (P : List Char) : Prop :=
  ∀ i, earliestNewline P = some i → ¬(P.get? i = some '\r' ∧ i + 1 = P.length)

/-- Run-level side condition for C4: every `next_line` call has capacity
above the pending byte count and is made in a `crSafe` state. -/
def lbOkRun (t : LBTrace) (ops : List LBOp) : Prop :=
  ∀ pre cap post, ops = pre ++ LBOp.next cap :: post →
    (pendContent (pre.foldl lbStep t).buf).length < cap ∧
    crSafe (pendContent (pre.foldl lbStep t).buf)

theorem lbOkRun_cons {t : LBTrace} {op : LBOp} {ops : List LBOp}
    (h : lbOkRun t (op :: ops)) : lbOkRun (lbStep t op) ops := by
  intro pre cap post hpre
  have h2 := h (op :: pre) cap post (by rw [hpre]; simp)
  simpa [List.foldl_cons] using h2

theorem lbOkRun_head {t : LBTrace} {cap : Nat} {ops : List LBOp}
    (h : lbOkRun t (LBOp.next cap :: ops)) :
    (pendContent t.buf).length < cap ∧ crSafe (pendContent t.buf) := by
  have h2 := h [] cap ops rfl
  simpa using h2

/-- The generalized run lemma for C4. -/
theorem lb_split_run (ops : List LBOp) (t : LBTrace)
    (hwf : t.buf.read_pos ≤ t.buf.data.length) (hok : lbOkRun t ops) :
    (ops.foldl lbStep t).lines ++ splitLines (pendContent (ops.foldl lbStep t).buf) =
      t.lines ++ splitLines (pendContent t.buf ++ concatAppends ops) := by
  induction ops generalizing t with
  | nil => simp [concatAppends]
  | cons op rest ih =>
    cases op with
    | app chunk =>
      obtain ⟨hpend, hwf'⟩ := append_spec t.buf chunk hwf
      have hstep := ih (lbStep t (LBOp.app chunk)) hwf' (lbOkRun_cons hok)
      rw [List.foldl_cons]
      rw [hstep]
      simp only [lbStep, hpend]
      rw [List.append_assoc]
      rfl
    | next cap =>
      obtain ⟨hcap, hsafe⟩ := lbOkRun_head hok
      cases hi : earliestNewline (pendContent t.buf) with
      | none =>
        have heq : lbStep t (LBOp.next cap) = t := by
          simp only [lbStep]
          rw [next_line_eq_none t.buf cap hi]
          rfl
        have hstep := ih (lbStep t (LBOp.next cap)) (by rw [heq]; exact hwf)
          (lbOkRun_cons hok)
        rw [List.foldl_cons]
        rw [hstep, heq]
        rfl
      | some i =>
        have hlt := earliestNewline_lt hi
        have hicap : i < cap := by omega
        have hnl := next_line_eq_some t.buf cap i hi
        rw [if_neg (by omega)] at hnl
        have heq : lbStep t (LBOp.next cap) =
            { buf := maybe_compact
                { t.buf with read_pos := t.buf.read_pos + consumeCount (pendContent t.buf) i },
              lines := t.lines ++ [((pendContent t.buf).take i ++ [Char.ofNat 0]).dropLast],
              appended := t.appended,
              consumed := t.consumed + consumeCount (pendContent t.buf) i } := by
          simp only [lbStep]
          rw [hnl, hi]
          rfl
        have hwf' : (lbStep t (LBOp.next cap)).buf.read_pos ≤
            (lbStep t (LBOp.next cap)).buf.data.length := by
          rw [heq]
          apply maybe_compact_wf
          show t.buf.read_pos + consumeCount (pendContent t.buf) i ≤ t.buf.data.length
          have hc := consumeCount_le_length hlt
          rw [pendContent_length] at hc
          omega
        have hstep := ih (lbStep t (LBOp.next cap)) hwf' (lbOkRun_cons hok)
        rw [List.foldl_cons]
        rw [hstep, heq]
        simp only [List.dropLast_concat, maybe_compact_pendContent]
        have hpend' : pendContent
            { t.buf with read_pos := t.buf.read_pos + consumeCount (pendContent t.buf) i } =
            (pendContent t.buf).drop (consumeCount (pendContent t.buf) i) := by
          show t.buf.data.drop (t.buf.read_pos + consumeCount (pendContent t.buf) i) = _
          show _ = (t.buf.data.drop t.buf.read_pos).drop (consumeCount (pendContent t.buf) i)
          rw [List.drop_drop]
        rw [hpend']
        have hconcat : concatAppends (LBOp.next cap :: rest) = concatAppends rest := rfl
        rw [hconcat]
        rw [splitLines_step (pendContent t.buf) (concatAppends rest) i hi (hsafe i hi)]
        simp

/-- C4 (amended): for every interleaving in which each `next_line` call
has capacity above the pending byte count and is never made while the
earliest pending delimiter is a final `\r` (whose matching `\n` may not
have arrived yet), the lines returned, followed by the lines still
extractable from the pending bytes, equal the LF/CR/CRLF split (CRLF
atomic) of the concatenated appended bytes.  Dropping the `\r`
restriction is unsound: see the counterexample, where a split `\r\n`
yields an extra empty line. -/
theorem line_buffer_split_amended (ops : List LBOp) (hok : lbOkRun lbInit ops) :
    (lbRun ops).lines ++ splitLines (pendContent (lbRun ops).buf) =
      splitLines (concatAppends ops) := by
  have h := lb_split_run ops lbInit (by simp [lbInit, conduit_line_buffer_create]) hok
  unfold lbRun
  rw [h]
  simp [lbInit, pendContent, conduit_line_buffer_create, splitLines]

/-- Executable form of the C4 side condition, for concrete runs. -/
def crSafeB (P : List Char) : Bool :=
  match earliestNewline P with
  | none => true
  | some i => ¬(P.get? i = some '\r' ∧ i + 1 = P.length)

theorem crSafeB_sound {P : List Char} (h : crSafeB P = true) : crSafe P := by
  intro i hi
  unfold crSafeB at h
  rw [hi] at h
  rw [decide_eq_true_eq] at h
  exact h

/-- Executable run checker for the C4 side condition. -/
def lbOkCheck (t : LBTrace) : List LBOp → Bool
  | [] => true
  | LBOp.app chunk :: rest => lbOkCheck (lbStep t (LBOp.app chunk)) rest
  | LBOp.next cap :: rest =>
    ((pendContent t.buf).length < cap ∧ crSafeB (pendContent t.buf) = true) &&
      lbOkCheck (lbStep t (LBOp.next cap)) rest

theorem lbOkCheck_sound : ∀ (ops : List LBOp) (t : LBTrace),
    lbOkCheck t ops = true → lbOkRun t ops := by
  intro ops
  induction ops with
  | nil =>
    intro t h pre cap post hpre
    exact absurd hpre (by cases pre <;> simp)
  | cons op rest ih =>
    intro t h pre cap post hpre
    cases pre with
    | nil =>
      simp only [List.nil_append, List.cons.injEq] at hpre
      obtain ⟨hop, hrest⟩ := hpre
      subst hop
      unfold lbOkCheck at h
      rw [Bool.and_eq_true] at h
      have h1 := h.1
      rw [decide_eq_true_eq] at h1
      exact ⟨h1.1, crSafeB_sound h1.2⟩
    | cons p pre' =>
      simp only [List.cons_append, List.cons.injEq] at hpre
      obtain ⟨hop, hrest⟩ := hpre
      subst hop
      have hrest' : lbOkCheck (lbStep t op) rest = true := by
        cases op with
        | app chunk => exact h
        | next c =>
          unfold lbOkCheck at h
          rw [Bool.and_eq_true] at h
          exact h.2
      have := ih (lbStep t op) hrest' pre' cap post hrest
      simpa [List.foldl_cons] using this

/-- C4 (witness): appending `a\r\nb\nc` then extracting twice returns
`a` and `b`; together with the still-pending `c` (no delimiter, no
line), this equals the offline split. -/
theorem line_buffer_split_amended_witness :
    (lbRun [LBOp.app ("a\r\nb\nc".toList), LBOp.next 100, LBOp.next 100]).lines ++
        splitLines (pendContent
          (lbRun [LBOp.app ("a\r\nb\nc".toList), LBOp.next 100, LBOp.next 100]).buf) =
      splitLines (concatAppends
        [LBOp.app ("a\r\nb\nc".toList), LBOp.next 100, LBOp.next 100]) :=
  line_buffer_split_amended [LBOp.app ("a\r\nb\nc".toList), LBOp.next 100, LBOp.next 100]
    (lbOkCheck_sound _ lbInit (by decide))

/-! ## C6: repair is the identity on valid JSON — infrastructure

The proof tracks three behaviours of the repair passes over a valid
value: the Phase A scanner returns to a clean state, the trailing
fix-ups find nothing to remove, and the Phase E pass copies every byte.
An uncapped scanner (`scanU`, counting depth as a `Nat`) is related to
the capped Phase A scanner by a pointwise bound. -/

/-- Uncapped scanner state: string flags plus a plain depth counter. -/
structure UScan where
  inStr : Bool
  esc : Bool
  depth : Nat
deriving Repr, DecidableEq

def scanUStep (st : UScan) (c : Char) : UScan :=
  if st.esc then { st with esc := false }
  else if st.inStr then
    if c = '\\' then { st with esc := true }
    else if c = '"' then { st with inStr := false }
    else st
  else if c = '"' then { st with inStr := true }
  else if c = '{' ∨ c = '[' then { st with depth := st.depth + 1 }
  else if c = '}' ∨ c = ']' then { st with depth := st.depth - 1 }
  else st

def scanU (st : UScan) (l : List Char) : UScan :=
  l.foldl scanUStep st

theorem scanU_append (st : UScan) (x y : List Char) :
    scanU st (x ++ y) = scanU (scanU st x) y :=
  List.foldl_append _ _ _ _

/-- Characters with no effect on the scanner outside strings. -/
def scanPlain (c : Char) : Prop :=
  ¬(c = '"' ∨ c = '\\' ∨ c = '{' ∨ c = '}' ∨ c = '[' ∨ c = ']')

instance (c : Char) : Decidable (scanPlain c) :=
  inferInstanceAs (Decidable ¬(c = '"' ∨ c = '\\' ∨ c = '{' ∨ c = '}' ∨ c = '[' ∨ c = ']'))

theorem scanUStep_plain {c : Char} (h : scanPlain c) (d : Nat) :
    scanUStep ⟨false, false, d⟩ c = ⟨false, false, d⟩ := by
  unfold scanPlain at h
  push_neg at h
  obtain ⟨h1, _, h3, h4, h5, h6⟩ := h
  unfold scanUStep
  simp only []
  rw [if_neg (by simp), if_neg (by simp), if_neg (by simpa using h1),
    if_neg (by tauto), if_neg (by tauto)]

theorem scanU_plain {c : List Char} (h : ∀ x ∈ c, scanPlain x) (d : Nat) :
    scanU ⟨false, false, d⟩ c = ⟨false, false, d⟩ := by
  induction c with
  | nil => rfl
  | cons a t ih =>
    show scanU (scanUStep ⟨false, false, d⟩ a) t = _
    rw [scanUStep_plain (h a (by simp)) d]
    exact ih (fun x hx => h x (by simp [hx]))

theorem isJsonWs_scanPlain {c : Char} (h : isJsonWs c = true) : scanPlain c := by
  unfold isJsonWs at h
  unfold scanPlain
  rcases Bool.or_eq_true_iff.mp h with h1 | h1
  · rcases Bool.or_eq_true_iff.mp h1 with h2 | h2
    · rcases Bool.or_eq_true_iff.mp h2 with h3 | h3
      · rw [beq_iff_eq] at h3; subst h3; decide
      · rw [beq_iff_eq] at h3; subst h3; decide
    · rw [beq_iff_eq] at h2; subst h2; decide
  · rw [beq_iff_eq] at h1; subst h1; decide

/-- The capped Phase A scanner agrees with the uncapped scanner on the
string flags, and its stack depth is bounded by the uncapped depth. -/
theorem phaseA_le_scanU (effMax : Nat) :
    ∀ (l : List Char) (sc : ScanSt) (su : UScan),
      sc.inStr = su.inStr → sc.esc = su.esc → sc.stack.length ≤ su.depth →
      ((l.foldl (phaseAStep effMax) sc).inStr = (scanU su l).inStr ∧
       (l.foldl (phaseAStep effMax) sc).esc = (scanU su l).esc ∧
       (l.foldl (phaseAStep effMax) sc).stack.length ≤ (scanU su l).depth) := by
  intro l
  induction l with
  | nil => intro sc su h1 h2 h3; exact ⟨h1, h2, h3⟩
  | cons c rest ih =>
    intro sc su h1 h2 h3
    have hstep :
        (phaseAStep effMax sc c).inStr = (scanUStep su c).inStr ∧
        (phaseAStep effMax sc c).esc = (scanUStep su c).esc ∧
        (phaseAStep effMax sc c).stack.length ≤ (scanUStep su c).depth := by
      obtain ⟨si, se, sst⟩ := sc
      obtain ⟨ui, ue, ud⟩ := su
      dsimp only at h1 h2 h3
      subst h1
      subst h2
      unfold phaseAStep scanUStep
      dsimp only
      by_cases he : se = true
      · simp only [if_pos he]
        exact ⟨by trivial, by trivial, h3⟩
      · simp only [if_neg he]
        by_cases hi : si = true
        · simp only [if_pos hi]
          by_cases hbs : c = '\\'
          · simp only [if_pos hbs]
            exact ⟨by trivial, by trivial, h3⟩
          · simp only [if_neg hbs]
            by_cases hq : c = '"'
            · simp only [if_pos hq]
              exact ⟨by trivial, by trivial, h3⟩
            · simp only [if_neg hq]
              exact ⟨by trivial, by trivial, h3⟩
        · simp only [if_neg hi]
          by_cases hq : c = '"'
          · simp only [if_pos hq]
            exact ⟨by trivial, by trivial, h3⟩
          · simp only [if_neg hq]
            by_cases hob : c = '{'
            · have hpush : c = '{' ∨ c = '[' := Or.inl hob
              simp only [if_pos hob, if_pos hpush]
              split
              · refine ⟨by trivial, by trivial, ?_⟩
                show (sst ++ [Bracket.brace]).length ≤ ud + 1
                rw [List.length_append]
                simp only [List.length_cons, List.length_nil]
                omega
              · refine ⟨by trivial, by trivial, ?_⟩
                show sst.length ≤ ud + 1
                omega
            · simp only [if_neg hob]
              by_cases hcb : c = '}'
              · have hnotpush : ¬(c = '{' ∨ c = '[') := by
                  subst hcb
                  decide
                have hpop : c = '}' ∨ c = ']' := Or.inl hcb
                simp only [if_pos hcb, if_neg hnotpush, if_pos hpop]
                split
                · refine ⟨by trivial, by trivial, ?_⟩
                  show sst.dropLast.length ≤ ud - 1
                  rw [List.length_dropLast]
                  omega
                · rename_i hlen
                  refine ⟨by trivial, by trivial, ?_⟩
                  show sst.length ≤ ud - 1
                  omega
              · simp only [if_neg hcb]
                by_cases hosq : c = '['
                · have hpush : c = '{' ∨ c = '[' := Or.inr hosq
                  simp only [if_pos hosq, if_pos hpush]
                  split
                  · refine ⟨by trivial, by trivial, ?_⟩
                    show (sst ++ [Bracket.square]).length ≤ ud + 1
                    rw [List.length_append]
                    simp only [List.length_cons, List.length_nil]
                    omega
                  · refine ⟨by trivial, by trivial, ?_⟩
                    show sst.length ≤ ud + 1
                    omega
                · by_cases hcsq : c = ']'
                  · have hnotpush : ¬(c = '{' ∨ c = '[') := by tauto
                    have hpop : c = '}' ∨ c = ']' := Or.inr hcsq
                    simp only [if_neg hosq, if_pos hcsq, if_neg hnotpush, if_pos hpop]
                    split
                    · refine ⟨by trivial, by trivial, ?_⟩
                      show sst.dropLast.length ≤ ud - 1
                      rw [List.length_dropLast]
                      omega
                    · rename_i hlen
                      refine ⟨by trivial, by trivial, ?_⟩
                      show sst.length ≤ ud - 1
                      omega
                  · have hnotpush : ¬(c = '{' ∨ c = '[') := by tauto
                    have hnotpop : ¬(c = '}' ∨ c = ']') := by tauto
                    simp only [if_neg hosq, if_neg hcsq, if_neg hnotpush, if_neg hnotpop]
                    exact ⟨by trivial, by trivial, h3⟩
    exact ih (phaseAStep effMax sc c) (scanUStep su c) hstep.1 hstep.2.1 hstep.2.2

/-! ### Phase E transparency -/

/-- A byte sequence through which `remove_trailing_commas` copies
verbatim, entering and leaving in the outside-string state. -/
def TCok (c : List Char) : Prop :=
  ∀ outCap out q, out + c.length < outCap →
    removeTCGo outCap out false false (c ++ q) =
      c ++ removeTCGo outCap (out + c.length) false false q

/-- Same, for a string tail (entered in the in-string state just after
the opening quote, left outside after the closing quote). -/
def TCokStr (bc : List Char) : Prop :=
  ∀ outCap out q, out + bc.length < outCap →
    removeTCGo outCap out true false (bc ++ q) =
      bc ++ removeTCGo outCap (out + bc.length) false false q

theorem TCok_nil : TCok [] := by
  intro outCap out q h
  simp

theorem TCok_append {a b : List Char} (ha : TCok a) (hb : TCok b) : TCok (a ++ b) := by
  intro outCap out q h
  rw [List.length_append] at h
  rw [List.append_assoc, ha outCap out (b ++ q) (by omega),
    hb outCap (out + a.length) q (by omega)]
  rw [List.length_append, ← List.append_assoc, ← Nat.add_assoc]

theorem removeTCGo_cons (outCap out : Nat) (inStr esc : Bool) (c : Char) (rest : List Char) :
    removeTCGo outCap out inStr esc (c :: rest) =
      if ¬out < outCap - 1 then []
      else if esc then c :: removeTCGo outCap (out + 1) inStr false rest
      else if inStr then
        if c = '\\' then c :: removeTCGo outCap (out + 1) true true rest
        else if c = '"' then c :: removeTCGo outCap (out + 1) false false rest
        else c :: removeTCGo outCap (out + 1) true false rest
      else if c = '"' then c :: removeTCGo outCap (out + 1) true false rest
      else if c = ',' then
        match (rest.dropWhile isJsonWs).head? with
        | some '}' => removeTCGo outCap out false false rest
        | some ']' => removeTCGo outCap out false false rest
        | _ => c :: removeTCGo outCap (out + 1) false false rest
      else c :: removeTCGo outCap (out + 1) false false rest := rfl

theorem dropWhile_ws_append {w : List Char} (b : List Char)
    (hw : ∀ x ∈ w, isJsonWs x = true) :
    ((w ++ b).dropWhile isJsonWs) = b.dropWhile isJsonWs := by
  induction w with
  | nil => rfl
  | cons a t iw =>
    rw [List.cons_append, List.dropWhile_cons, if_pos (hw a (by simp))]
    exact iw (fun x hx => hw x (by simp [hx]))

theorem TCok_plain {c : List Char} (h : ∀ x ∈ c, ¬(x = '"' ∨ x = ',')) : TCok c := by
  induction c with
  | nil => exact TCok_nil
  | cons a t ih =>
    intro outCap out q hcap
    have ha := h a (by simp)
    push_neg at ha
    rw [List.length_cons] at hcap
    show removeTCGo outCap out false false (a :: (t ++ q)) = _
    rw [removeTCGo_cons]
    rw [if_neg (by omega)]
    rw [if_neg (by simp), if_neg (by simp), if_neg ha.1, if_neg ha.2]
    rw [ih (fun x hx => h x (by simp [hx])) outCap (out + 1) q (by omega)]
    rw [List.cons_append, List.length_cons]
    have harith : out + (t.length + 1) = out + 1 + t.length := by omega
    rw [harith]

theorem TCok_comma (w next : List Char)
    (hw : ∀ x ∈ w, isJsonWs x = true) (hnext : TCok next)
    (hhead : ∃ s t0, next = s :: t0 ∧ isJsonWs s = false ∧ ¬s = '}' ∧ ¬s = ']') :
    TCok (',' :: (w ++ next)) := by
  intro outCap out q hcap
  obtain ⟨s, t0, hn, hsw, hs1, hs2⟩ := hhead
  rw [List.length_cons, List.length_append] at hcap
  show removeTCGo outCap out false false (',' :: (w ++ next ++ q)) = _
  rw [removeTCGo_cons]
  rw [if_neg (by omega)]
  rw [if_neg (by simp), if_neg (by simp), if_neg (by decide)]
  rw [if_pos rfl]
  have hdw : ((w ++ next ++ q).dropWhile isJsonWs) = next ++ q := by
    rw [List.append_assoc, dropWhile_ws_append (next ++ q) hw, hn]
    rw [List.cons_append, List.dropWhile_cons, if_neg (by simp [hsw])]
  have hhd : (next ++ q).head? = some s := by
    rw [hn]
    rfl
  rw [hdw, hhd]
  have hTCw : TCok w := TCok_plain (by
    intro x hx hcon
    have := hw x hx
    cases hcon with
    | inl h1 => subst h1; simp [isJsonWs] at this
    | inr h1 => subst h1; simp [isJsonWs] at this)
  have hsplit : removeTCGo outCap (out + 1) false false (w ++ (next ++ q)) =
      w ++ removeTCGo outCap (out + 1 + w.length) false false (next ++ q) :=
    hTCw outCap (out + 1) (next ++ q) (by omega)
  have hnx : removeTCGo outCap (out + 1 + w.length) false false (next ++ q) =
      next ++ removeTCGo outCap (out + 1 + w.length + next.length) false false q :=
    hnext outCap (out + 1 + w.length) q (by omega)
  split
  · rename_i hcon
    injection hcon with hcon2
    exact absurd hcon2 hs1
  · rename_i hcon
    injection hcon with hcon2
    exact absurd hcon2 hs2
  · rw [← List.append_assoc] at hsplit
    rw [hsplit, hnx]
    rw [List.cons_append, List.length_cons, List.length_append]
    have harith : out + (w.length + next.length + 1) = out + 1 + w.length + next.length := by
      omega
    rw [harith, ← List.append_assoc]

/-! ### Backslash runs and the backward quote scan -/

theorem takeWhile_append_eq (p : Char → Bool) (x y : List Char) :
    (x ++ y).takeWhile p =
      if x.all p then x ++ y.takeWhile p else x.takeWhile p := by
  induction x with
  | nil => simp
  | cons a t ih =>
    rw [List.cons_append, List.takeWhile_cons, List.all_cons]
    by_cases ha : p a = true
    · rw [if_pos ha, ih, ha, Bool.true_and]
      by_cases ht : t.all p = true
      · rw [if_pos ht, if_pos ht, List.cons_append]
      · rw [if_neg ht, if_neg ht, List.takeWhile_cons, if_pos ha]
    · rw [Bool.not_eq_true] at ha
      rw [if_neg (by simp [ha]), ha, Bool.false_and]
      rw [if_neg (by simp), List.takeWhile_cons, if_neg (by simp [ha])]

/-- Peeling a block ending in a non-backslash off the front of the
buffer does not change backslash runs computed past it. -/
theorem backslashRun_append (pre l : List Char) (k : Nat) (a : Char)
    (hlast : pre.getLast? = some a) (ha : ¬a = '\\') :
    backslashRun (pre ++ l) (pre.length + k) = backslashRun l k := by
  unfold backslashRun
  rw [List.take_append]
  rw [List.reverse_append]
  rw [takeWhile_append_eq]
  split
  · rename_i hall
    have hhead : pre.reverse.head? = some a := by
      rw [List.head?_reverse]
      exact hlast
    have : pre.reverse.takeWhile (fun c => c == '\\') = [] := by
      cases hpr : pre.reverse with
      | nil => rfl
      | cons x xs =>
        rw [hpr] at hhead
        have hx : x = a := by simpa using hhead
        rw [List.takeWhile_cons, if_neg (by simp [hx, ha])]
    rw [this, List.append_nil, List.length_reverse]
    have hall2 : ∀ x ∈ (l.take k).reverse, (fun c => c == '\\') x = true := by
      rw [List.all_eq_true] at hall
      exact hall
    have : (l.take k).reverse.takeWhile (fun c => c == '\\') = (l.take k).reverse := by
      exact List.takeWhile_eq_self_iff.mpr hall2
    rw [this, List.length_reverse]
  · rfl

/-- Parity of a backslash run is unchanged by peeling a two-byte escape
off the front. -/
theorem backslashRun_escape_parity (e : Char) (l : List Char) (k : Nat) :
    backslashRun ('\\' :: e :: l) (k + 2) % 2 = backslashRun l k % 2 := by
  by_cases he : e = '\\'
  · subst he
    unfold backslashRun
    have htake : ('\\' :: '\\' :: l).take (k + 2) = '\\' :: '\\' :: l.take k := rfl
    rw [htake]
    have hrev : ('\\' :: '\\' :: l.take k).reverse =
        (l.take k).reverse ++ ['\\', '\\'] := by
      simp
    rw [hrev, takeWhile_append_eq]
    split
    · rename_i hall
      have h1 : (l.take k).reverse.takeWhile (fun c => c == '\\') =
          (l.take k).reverse :=
        List.takeWhile_eq_self_iff.mpr (by rw [List.all_eq_true] at hall; exact hall)
      rw [h1]
      simp only [List.length_append, List.length_reverse]
      have h2 : (['\\', '\\'] : List Char).takeWhile (fun c => c == '\\') = ['\\', '\\'] := by
        decide
      rw [h2]
      have hl2 : (['\\', '\\'] : List Char).length = 2 := rfl
      rw [hl2]
      omega
    · rfl
  · have h0 := backslashRun_append ['\\', e] l k e (by simp) he
    have hlen : (['\\', e] : List Char).length + k = k + 2 := by
      simp only [List.length_cons, List.length_nil]
      omega
    rw [hlen] at h0
    have happ : (['\\', e] : List Char) ++ l = '\\' :: e :: l := rfl
    rw [happ] at h0
    rw [h0]

theorem kvpScanBack_zero (buf : List Char) (start : Nat)
    (h : ∀ p, 0 < p → p ≤ start → ¬(buf.get? p = some '"' ∧ backslashRun buf p % 2 = 0)) :
    kvpScanBack buf start = 0 := by
  induction start with
  | zero => rfl
  | succ n ih =>
    unfold kvpScanBack
    rw [if_neg (h (n + 1) (by omega) (by omega))]
    exact ih (fun p hp1 hp2 => h p hp1 (by omega))

/-- A well-formed string literal: opening and closing quotes, and every
interior quote preceded by an odd run of backslashes. -/
def StrLitOk (v : List Char) : Prop :=
  2 ≤ v.length ∧ v.get? 0 = some '"' ∧ v.getLast? = some '"' ∧
  ∀ p, 0 < p → p + 1 < v.length → v.get? p = some '"' → backslashRun v p % 2 = 1

/-! ### Trailing-trim and last-byte lemmas -/

theorem trim_id {v : List Char} {x : Char} (h : v.getLast? = some x)
    (hx : isJsonWs x = false) : trim_trailing_whitespace v = v := by
  unfold trim_trailing_whitespace
  have hh : v.reverse.head? = some x := by
    rw [List.head?_reverse]
    exact h
  cases hr : v.reverse with
  | nil =>
    rw [hr] at hh
    cases hh
  | cons a t =>
    rw [hr] at hh
    have hax : a = x := by simpa using hh
    rw [List.dropWhile_cons, if_neg (by simp [hax, hx]), ← hr, List.reverse_reverse]

theorem trim_append_ws {v w : List Char} (hw : ∀ x ∈ w, isJsonWs x = true) :
    trim_trailing_whitespace (v ++ w) = trim_trailing_whitespace v := by
  unfold trim_trailing_whitespace
  rw [List.reverse_append,
    dropWhile_ws_append v.reverse (fun x hx => hw x (List.mem_reverse.mp hx))]

theorem getLast?_append_right {x y : List Char} (h : y ≠ []) :
    (x ++ y).getLast? = y.getLast? := by
  rw [← List.head?_reverse, ← List.head?_reverse, List.reverse_append]
  cases hy : y.reverse with
  | nil => exact absurd (List.reverse_eq_nil_iff.mp hy) h
  | cons a t => rw [List.cons_append, List.head?_cons, List.head?_cons]

theorem getLast?_cons_ne_nil {a : Char} {l : List Char} (h : l ≠ []) :
    (a :: l).getLast? = l.getLast? :=
  @getLast?_append_right [a] l h

theorem eq_dropLast_concat {l : List Char} {x : Char} (h : l.getLast? = some x) :
    l = l.dropLast ++ [x] := by
  cases l with
  | nil => cases h
  | cons a t =>
    have hne : (a :: t) ≠ ([] : List Char) := by simp
    have h2 := List.dropLast_concat_getLast hne
    have h3 : (a :: t).getLast hne = x := by
      have h4 := List.getLast?_eq_getLast (a :: t) hne
      rw [h4] at h
      exact Option.some.inj h
    rw [← h3]
    exact h2.symm

/-! ### `remove_incomplete_kvp` identity lemmas -/

theorem kvp_id_nonquote {v : List Char} {x : Char} (h : v.getLast? = some x)
    (hx : isJsonWs x = false) (h1 : ¬x = ',') (h2 : ¬x = ':') (h3 : ¬x = '"') :
    remove_incomplete_kvp v = v := by
  have hc1 : ¬v.getLast? = some ',' := by
    rw [h]
    simp [h1]
  have hc2 : ¬v.getLast? = some ':' := by
    rw [h]
    simp [h2]
  have hc3 : ¬v.getLast? = some '"' := by
    rw [h]
    simp [h3]
  unfold remove_incomplete_kvp
  dsimp only
  rw [trim_id h hx]
  rw [if_neg hc1, if_neg hc2, if_neg hc3]

theorem kvp_id_strlit {v : List Char} (hS : StrLitOk v) :
    remove_incomplete_kvp v = v := by
  obtain ⟨hlen, h0, hlast, hquotes⟩ := hS
  have hc1 : ¬v.getLast? = some ',' := by
    rw [hlast]
    decide
  have hc2 : ¬v.getLast? = some ':' := by
    rw [hlast]
    decide
  have hscan : kvpScanBack v (v.length - 1 - 1) = 0 := by
    apply kvpScanBack_zero
    intro p hp hple hcon
    obtain ⟨hq, hrun⟩ := hcon
    have hlt : p + 1 < v.length := by omega
    have hodd := hquotes p hp hlt hq
    omega
  unfold remove_incomplete_kvp
  dsimp only
  rw [trim_id hlast (by decide)]
  rw [if_neg hc1, if_neg hc2, if_pos hlast]
  rw [hscan]
  have hprev : skipWsBack v (if 0 > 0 then 0 - 1 else 0) = 0 := rfl
  rw [hprev, h0]
  rw [if_neg (by decide), if_neg (by decide)]

/-! ### Character-class helpers for the parser induction -/

theorem isJsonWs_cases {c : Char} (h : isJsonWs c = true) :
    c = ' ' ∨ c = '\t' ∨ c = '\n' ∨ c = '\r' := by
  unfold isJsonWs at h
  rcases Bool.or_eq_true_iff.mp h with h1 | h1
  · rcases Bool.or_eq_true_iff.mp h1 with h2 | h2
    · rcases Bool.or_eq_true_iff.mp h2 with h3 | h3
      · exact Or.inl (by simpa using h3)
      · exact Or.inr (Or.inl (by simpa using h3))
    · exact Or.inr (Or.inr (Or.inl (by simpa using h2)))
  · exact Or.inr (Or.inr (Or.inr (by simpa using h1)))

theorem ws_not_qc {x : Char} (h : isJsonWs x = true) : ¬(x = '"' ∨ x = ',') := by
  rcases isJsonWs_cases h with h1 | h1 | h1 | h1 <;> subst h1 <;> decide

/-- The characters a JSON number can contain. -/
def numCh (c : Char) : Bool :=
  isDigitCh c || c == '-' || c == '+' || c == '.' || c == 'e' || c == 'E'

theorem numCh_not_qc {c : Char} (h : numCh c = true) : ¬(c = '"' ∨ c = ',') := by
  intro hc
  rcases hc with h1 | h1 <;> subst h1 <;> exact absurd h (by decide)

theorem numCh_scanPlain {c : Char} (h : numCh c = true) : scanPlain c := by
  unfold scanPlain
  intro hc
  rcases hc with h1 | h1 | h1 | h1 | h1 | h1 <;> subst h1 <;> exact absurd h (by decide)

theorem numCh_not_ws {c : Char} (h : numCh c = true) : isJsonWs c = false := by
  cases hw : isJsonWs c with
  | false => rfl
  | true =>
    rcases isJsonWs_cases hw with h1 | h1 | h1 | h1 <;> subst h1 <;>
      exact absurd h (by decide)

theorem numCh_not_closer {c : Char} (h : numCh c = true) : ¬c = '}' ∧ ¬c = ']' := by
  constructor <;> intro h1 <;> subst h1 <;> exact absurd h (by decide)

theorem digit_numCh {c : Char} (h : isDigitCh c = true) : numCh c = true := by
  unfold numCh
  rw [h]
  rfl

theorem isDigitCh_props {c : Char} (h : isDigitCh c = true) :
    isJsonWs c = false ∧ ¬c = ',' ∧ ¬c = ':' ∧ ¬c = '"' := by
  refine ⟨numCh_not_ws (digit_numCh h), ?_, ?_, ?_⟩ <;> intro h1 <;> subst h1 <;>
    exact absurd h (by decide)

theorem isHexCh_ne_bs {c : Char} (h : isHexCh c = true) : ¬c = '\\' := by
  intro h1
  subst h1
  exact absurd h (by decide)

theorem isHexCh_ne_quote {c : Char} (h : isHexCh c = true) : ¬c = '"' := by
  intro h1
  subst h1
  exact absurd h (by decide)

/-! ### Scanner step helpers -/

theorem scanU_cons (st : UScan) (c : Char) (l : List Char) :
    scanU st (c :: l) = scanU (scanUStep st c) l := rfl

theorem scanUStep_instr_other {c : Char} (h1 : ¬c = '\\') (h2 : ¬c = '"') (d : Nat) :
    scanUStep ⟨true, false, d⟩ c = ⟨true, false, d⟩ := by
  unfold scanUStep
  rw [if_neg (by simp), if_pos (by simp), if_neg h1, if_neg h2]

theorem scanU_instr_plain {bcs : List Char}
    (h : ∀ x ∈ bcs, ¬x = '\\' ∧ ¬x = '"') (d : Nat) :
    scanU ⟨true, false, d⟩ bcs = ⟨true, false, d⟩ := by
  induction bcs with
  | nil => rfl
  | cons a t ih =>
    rw [scanU_cons, scanUStep_instr_other (h a (by simp)).1 (h a (by simp)).2]
    exact ih (fun x hx => h x (by simp [hx]))

/-! ### Phase E composition for strings -/

theorem TCok_string {bc : List Char} (h : TCokStr bc) : TCok ('"' :: bc) := by
  intro cap out q hcap
  rw [List.length_cons] at hcap
  show removeTCGo cap out false false ('"' :: (bc ++ q)) = _
  rw [removeTCGo_cons, if_neg (by omega), if_neg (by simp), if_neg (by simp), if_pos rfl]
  rw [h cap (out + 1) q (by omega)]
  rw [List.cons_append, List.length_cons]
  have harith : out + (bc.length + 1) = out + 1 + bc.length := by omega
  rw [harith]

theorem append_ne_nil_r {x y : List Char} (h : y ≠ []) : x ++ y ≠ [] := by
  intro hc
  rcases List.append_eq_nil.mp hc with ⟨h1, h2⟩
  exact h h2

theorem takeWhile_ws_all (l : List Char) :
    ∀ x ∈ l.takeWhile isJsonWs, isJsonWs x = true :=
  fun _ hx => List.mem_takeWhile_imp hx

/-! ### Consumed-prefix fact bundles for the strict parser -/

/-- The consumed text starts with a byte that is not whitespace and not a
closing bracket (what the Phase E comma lookahead checks). -/
def headStarter (c : List Char) : Prop :=
  ∃ s t0, c = s :: t0 ∧ isJsonWs s = false ∧ ¬s = '}' ∧ ¬s = ']'

/-- The consumed text ends in a byte that survives every trailing
fix-up, and if that byte is a quote the text is a whole string literal. -/
def lastOkV (c : List Char) : Prop :=
  ∃ x, c.getLast? = some x ∧ isJsonWs x = false ∧ ¬x = ',' ∧ ¬x = ':' ∧
    (x = '"' → StrLitOk c)

def ValueFacts (c : List Char) : Prop :=
  c ≠ [] ∧ (∀ d, scanU ⟨false, false, d⟩ c = ⟨false, false, d⟩) ∧ TCok c ∧
    headStarter c ∧ lastOkV c

def MembersFacts (c : List Char) : Prop :=
  c ≠ [] ∧ (∀ d, scanU ⟨false, false, d + 1⟩ c = ⟨false, false, d⟩) ∧ TCok c ∧
    headStarter c ∧ c.getLast? = some '}'

def ElementsFacts (c : List Char) : Prop :=
  c ≠ [] ∧ (∀ d, scanU ⟨false, false, d + 1⟩ c = ⟨false, false, d⟩) ∧ TCok c ∧
    headStarter c ∧ c.getLast? = some ']'

/-- Every quote in the string tail except the final closing one sits
behind an odd backslash run. -/
def QuoteRuns (bc : List Char) : Prop :=
  ∀ p, p + 1 < bc.length → bc.get? p = some '"' → backslashRun bc p % 2 = 1

def BodyFacts (bc : List Char) : Prop :=
  bc ≠ [] ∧ (∀ d, scanU ⟨true, false, d⟩ bc = ⟨false, false, d⟩) ∧ TCokStr bc ∧
    bc.getLast? = some '"' ∧ QuoteRuns bc

theorem parseStringBody_facts :
    ∀ (fuel : Nat) (l r : List Char), parseStringBody fuel l = some r →
      ∃ bc, l = bc ++ r ∧ BodyFacts bc := by
  intro fuel
  induction fuel with
  | zero =>
    intro l r h
    cases l with
    | nil => exact absurd h (by simp [parseStringBody])
    | cons c rest => exact absurd h (by simp [parseStringBody])
  | succ f ih =>
    intro l r h
    cases l with
    | nil => exact absurd h (by simp [parseStringBody])
    | cons c rest =>
      unfold parseStringBody at h
      dsimp only at h
      by_cases hq : c = '"'
      · rw [if_pos hq] at h
        have hr : rest = r := Option.some.inj h
        subst hq
        subst hr
        refine ⟨['"'], rfl, by simp, fun d => rfl, ?_, rfl, ?_⟩
        · intro cap out q hcap
          have hcap' : out + 1 < cap := by simpa using hcap
          show removeTCGo cap out true false ('"' :: q) = _
          rw [removeTCGo_cons, if_neg (by omega), if_neg (by simp), if_pos (by simp),
            if_neg (by decide), if_pos rfl]
          rfl
        · intro p hp hq2
          have hlt : p + 1 < 1 := by simpa using hp
          exact absurd hlt (by omega)
      · by_cases hbs : c = '\\'
        · rw [if_neg hq, if_pos hbs] at h
          cases rest with
          | nil => exact absurd h (by simp)
          | cons e rest2 =>
            dsimp only at h
            by_cases hesc :
                e = '"' ∨ e = '\\' ∨ e = '/' ∨ e = 'b' ∨ e = 'f' ∨ e = 'n' ∨ e = 'r' ∨ e = 't'
            · rw [if_pos hesc] at h
              obtain ⟨bc', hsplit, hne', hscan', htc', hlast', hruns'⟩ := ih rest2 r h
              subst hbs
              refine ⟨'\\' :: e :: bc', ?_, by simp, ?_, ?_, ?_, ?_⟩
              · rw [hsplit, List.cons_append, List.cons_append]
              · intro d
                rw [scanU_cons, scanU_cons,
                  show scanUStep ⟨true, false, d⟩ '\\' = ⟨true, true, d⟩ from rfl,
                  show scanUStep ⟨true, true, d⟩ e = ⟨true, false, d⟩ from rfl]
                exact hscan' d
              · intro cap out q hcap
                rw [List.length_cons, List.length_cons] at hcap
                show removeTCGo cap out true false ('\\' :: (e :: (bc' ++ q))) = _
                rw [removeTCGo_cons, if_neg (by omega), if_neg (by simp),
                  if_pos (by simp), if_pos rfl]
                rw [removeTCGo_cons, if_neg (by omega), if_pos (by simp)]
                rw [htc' cap (out + 1 + 1) q (by omega)]
                rw [List.cons_append, List.cons_append, List.length_cons, List.length_cons]
                have harith : out + (bc'.length + 1 + 1) = out + 1 + 1 + bc'.length := by
                  omega
                rw [harith]
              · have h1 : ('\\' :: e :: bc').getLast? = (e :: bc').getLast? :=
                  getLast?_cons_ne_nil (by simp)
                have h2 : (e :: bc').getLast? = bc'.getLast? := getLast?_cons_ne_nil hne'
                rw [h1, h2]
                exact hlast'
              · intro p hp hq2
                cases p with
                | zero =>
                  have h3 : ('\\' :: e :: bc').get? 0 = some '\\' := rfl
                  rw [h3] at hq2
                  exact absurd hq2 (by decide)
                | succ p1 =>
                  cases p1 with
                  | zero =>
                    have h4 : backslashRun ('\\' :: e :: bc') 1 = 1 := rfl
                    rw [h4]
                  | succ k =>
                    have hp' : k + 1 < bc'.length := by
                      rw [List.length_cons, List.length_cons] at hp
                      omega
                    have hq3 : bc'.get? k = some '"' := hq2
                    rw [backslashRun_escape_parity]
                    exact hruns' k hp' hq3
            · rw [if_neg hesc] at h
              by_cases hu : e = 'u'
              · rw [if_pos hu] at h
                cases rest2 with
                | nil => exact absurd h (by simp)
                | cons x1 t1 =>
                  cases t1 with
                  | nil => exact absurd h (by simp)
                  | cons x2 t2 =>
                    cases t2 with
                    | nil => exact absurd h (by simp)
                    | cons x3 t3 =>
                      cases t3 with
                      | nil => exact absurd h (by simp)
                      | cons x4 rest3 =>
                        dsimp only at h
                        by_cases hhex :
                            isHexCh x1 = true ∧ isHexCh x2 = true ∧
                            isHexCh x3 = true ∧ isHexCh x4 = true
                        · rw [if_pos hhex] at h
                          obtain ⟨bc', hsplit, hne', hscan', htc', hlast', hruns'⟩ :=
                            ih rest3 r h
                          subst hbs
                          subst hu
                          refine ⟨'\\' :: 'u' :: x1 :: x2 :: x3 :: x4 :: bc', ?_, by simp,
                            ?_, ?_, ?_, ?_⟩
                          · rw [hsplit, List.cons_append, List.cons_append,
                              List.cons_append, List.cons_append, List.cons_append,
                              List.cons_append]
                          · intro d
                            rw [scanU_cons, scanU_cons,
                              show scanUStep ⟨true, false, d⟩ '\\' = ⟨true, true, d⟩ from
                                rfl,
                              show scanUStep ⟨true, true, d⟩ 'u' = ⟨true, false, d⟩ from
                                rfl]
                            rw [scanU_cons,
                              scanUStep_instr_other (isHexCh_ne_bs hhex.1)
                                (isHexCh_ne_quote hhex.1)]
                            rw [scanU_cons,
                              scanUStep_instr_other (isHexCh_ne_bs hhex.2.1)
                                (isHexCh_ne_quote hhex.2.1)]
                            rw [scanU_cons,
                              scanUStep_instr_other (isHexCh_ne_bs hhex.2.2.1)
                                (isHexCh_ne_quote hhex.2.2.1)]
                            rw [scanU_cons,
                              scanUStep_instr_other (isHexCh_ne_bs hhex.2.2.2)
                                (isHexCh_ne_quote hhex.2.2.2)]
                            exact hscan' d
                          · intro cap out q hcap
                            rw [List.length_cons, List.length_cons, List.length_cons,
                              List.length_cons, List.length_cons, List.length_cons] at hcap
                            show removeTCGo cap out true false
                              ('\\' :: ('u' :: (x1 :: (x2 :: (x3 :: (x4 ::
                                (bc' ++ q))))))) = _
                            rw [removeTCGo_cons, if_neg (by omega), if_neg (by simp),
                              if_pos (by simp), if_pos rfl]
                            rw [removeTCGo_cons, if_neg (by omega), if_pos (by simp)]
                            rw [removeTCGo_cons, if_neg (by omega), if_neg (by simp),
                              if_pos (by simp), if_neg (isHexCh_ne_bs hhex.1),
                              if_neg (isHexCh_ne_quote hhex.1)]
                            rw [removeTCGo_cons, if_neg (by omega), if_neg (by simp),
                              if_pos (by simp), if_neg (isHexCh_ne_bs hhex.2.1),
                              if_neg (isHexCh_ne_quote hhex.2.1)]
                            rw [removeTCGo_cons, if_neg (by omega), if_neg (by simp),
                              if_pos (by simp), if_neg (isHexCh_ne_bs hhex.2.2.1),
                              if_neg (isHexCh_ne_quote hhex.2.2.1)]
                            rw [removeTCGo_cons, if_neg (by omega), if_neg (by simp),
                              if_pos (by simp), if_neg (isHexCh_ne_bs hhex.2.2.2),
                              if_neg (isHexCh_ne_quote hhex.2.2.2)]
                            rw [htc' cap (out + 1 + 1 + 1 + 1 + 1 + 1) q (by omega)]
                            rw [List.cons_append, List.cons_append, List.cons_append,
                              List.cons_append, List.cons_append, List.cons_append,
                              List.length_cons, List.length_cons, List.length_cons,
                              List.length_cons, List.length_cons, List.length_cons]
                            have harith :
                                out + (bc'.length + 1 + 1 + 1 + 1 + 1 + 1) =
                                  out + 1 + 1 + 1 + 1 + 1 + 1 + bc'.length := by
                              omega
                            rw [harith]
                          · have g1 :
                                ('\\' :: 'u' :: x1 :: x2 :: x3 :: x4 :: bc').getLast? =
                                  bc'.getLast? := by
                              rw [getLast?_cons_ne_nil (by simp),
                                getLast?_cons_ne_nil (by simp),
                                getLast?_cons_ne_nil (by simp),
                                getLast?_cons_ne_nil (by simp),
                                getLast?_cons_ne_nil (by simp),
                                getLast?_cons_ne_nil hne']
                            rw [g1]
                            exact hlast'
                          · intro p hp hq2
                            rw [List.length_cons, List.length_cons, List.length_cons,
                              List.length_cons, List.length_cons, List.length_cons] at hp
                            by_cases hp6 : p < 6
                            · interval_cases p
                              · have h3 :
                                    ('\\' :: 'u' :: x1 :: x2 :: x3 :: x4 :: bc').get? 0 =
                                      some '\\' := rfl
                                rw [h3] at hq2
                                exact absurd hq2 (by decide)
                              · have h3 :
                                    ('\\' :: 'u' :: x1 :: x2 :: x3 :: x4 :: bc').get? 1 =
                                      some 'u' := rfl
                                rw [h3] at hq2
                                exact absurd hq2 (by decide)
                              · have h3 :
                                    ('\\' :: 'u' :: x1 :: x2 :: x3 :: x4 :: bc').get? 2 =
                                      some x1 := rfl
                                rw [h3] at hq2
                                exact absurd (Option.some.inj hq2)
                                  (isHexCh_ne_quote hhex.1)
                              · have h3 :
                                    ('\\' :: 'u' :: x1 :: x2 :: x3 :: x4 :: bc').get? 3 =
                                      some x2 := rfl
                                rw [h3] at hq2
                                exact absurd (Option.some.inj hq2)
                                  (isHexCh_ne_quote hhex.2.1)
                              · have h3 :
                                    ('\\' :: 'u' :: x1 :: x2 :: x3 :: x4 :: bc').get? 4 =
                                      some x3 := rfl
                                rw [h3] at hq2
                                exact absurd (Option.some.inj hq2)
                                  (isHexCh_ne_quote hhex.2.2.1)
                              · have h3 :
                                    ('\\' :: 'u' :: x1 :: x2 :: x3 :: x4 :: bc').get? 5 =
                                      some x4 := rfl
                                rw [h3] at hq2
                                exact absurd (Option.some.inj hq2)
                                  (isHexCh_ne_quote hhex.2.2.2)
                            · obtain ⟨k, rfl⟩ : ∃ k, p = k + 6 := ⟨p - 6, by omega⟩
                              have hp' : k + 1 < bc'.length := by omega
                              have hq3 : bc'.get? k = some '"' := hq2
                              have h6 := backslashRun_append
                                ['\\', 'u', x1, x2, x3, x4] bc' k x4 (by rfl)
                                (isHexCh_ne_bs hhex.2.2.2)
                              have hlen6 :
                                  (['\\', 'u', x1, x2, x3, x4] : List Char).length + k =
                                    k + 6 := by
                                simp only [List.length_cons, List.length_nil]
                                omega
                              rw [hlen6] at h6
                              show backslashRun
                                (['\\', 'u', x1, x2, x3, x4] ++ bc') (k + 6) % 2 = 1
                              rw [h6]
                              exact hruns' k hp' hq3
                        · rw [if_neg hhex] at h
                          exact absurd h (by simp)
              · rw [if_neg hu] at h
                exact absurd h (by simp)
        · rw [if_neg hq, if_neg hbs] at h
          by_cases h32 : 32 ≤ c.toNat
          · rw [if_pos h32] at h
            obtain ⟨bc', hsplit, hne', hscan', htc', hlast', hruns'⟩ := ih rest r h
            refine ⟨c :: bc', ?_, by simp, ?_, ?_, ?_, ?_⟩
            · rw [hsplit, List.cons_append]
            · intro d
              rw [scanU_cons, scanUStep_instr_other hbs hq]
              exact hscan' d
            · intro cap out q hcap
              rw [List.length_cons] at hcap
              show removeTCGo cap out true false (c :: (bc' ++ q)) = _
              rw [removeTCGo_cons, if_neg (by omega), if_neg (by simp), if_pos (by simp),
                if_neg hbs, if_neg hq]
              rw [htc' cap (out + 1) q (by omega)]
              rw [List.cons_append, List.length_cons]
              have harith : out + (bc'.length + 1) = out + 1 + bc'.length := by omega
              rw [harith]
            · rw [getLast?_cons_ne_nil hne']
              exact hlast'
            · intro p hp hq2
              cases p with
              | zero =>
                have h3 : (c :: bc').get? 0 = some c := rfl
                rw [h3] at hq2
                exact absurd (Option.some.inj hq2) hq
              | succ k =>
                have hp' : k + 1 < bc'.length := by
                  rw [List.length_cons] at hp
                  omega
                have hq3 : bc'.get? k = some '"' := hq2
                have h1 := backslashRun_append [c] bc' k c (by rfl) hbs
                have hlen1 : ([c] : List Char).length + k = k + 1 := by
                  simp only [List.length_cons, List.length_nil]
                  omega
                rw [hlen1] at h1
                show backslashRun ([c] ++ bc') (k + 1) % 2 = 1
                rw [h1]
                exact hruns' k hp' hq3
          · rw [if_neg h32] at h
            exact absurd h (by simp)

/-! ### Number-literal consumed-prefix facts -/

theorem getLast?_all {c : List Char} {p : Char → Bool} (hne : c ≠ [])
    (h : ∀ x ∈ c, p x = true) : ∃ y, c.getLast? = some y ∧ p y = true :=
  ⟨c.getLast hne, List.getLast?_eq_getLast c hne, h _ (List.getLast_mem hne)⟩

/-- A nonempty run of number characters ending in a digit. -/
def NumPiece (c : List Char) : Prop :=
  c ≠ [] ∧ (∀ x ∈ c, numCh x = true) ∧ ∃ y, c.getLast? = some y ∧ isDigitCh y = true

theorem NumPiece_extend {a b : List Char} (ha : ∀ x ∈ a, numCh x = true)
    (hb : NumPiece b) : NumPiece (a ++ b) := by
  obtain ⟨h1, h2, y, hy1, hy2⟩ := hb
  refine ⟨append_ne_nil_r h1, ?_, y, ?_, hy2⟩
  · intro x hx
    rcases List.mem_append.mp hx with hx1 | hx1
    · exact ha x hx1
    · exact h2 x hx1
  · rw [getLast?_append_right h1]
    exact hy1

theorem expCore (sgn M0 r : List Char) (hsgn : ∀ x ∈ sgn, numCh x = true)
    (hz : ¬(M0.takeWhile isDigitCh).length = 0)
    (hdrop : M0.dropWhile isDigitCh = r) :
    ∃ c, sgn ++ M0 = c ++ r ∧ NumPiece c := by
  have htw : M0 = M0.takeWhile isDigitCh ++ M0.dropWhile isDigitCh :=
    (List.takeWhile_append_dropWhile isDigitCh M0).symm
  have hne : M0.takeWhile isDigitCh ≠ [] := fun hc => hz (by rw [hc]; rfl)
  refine ⟨sgn ++ M0.takeWhile isDigitCh, ?_, ?_⟩
  · rw [List.append_assoc, ← hdrop, ← htw]
  · refine ⟨append_ne_nil_r hne, ?_, ?_⟩
    · intro x hx
      rcases List.mem_append.mp hx with h1 | h1
      · exact hsgn x h1
      · exact digit_numCh (List.mem_takeWhile_imp h1)
    · obtain ⟨y, hy1, hy2⟩ := getLast?_all hne (fun x hx => List.mem_takeWhile_imp hx)
      exact ⟨y, by rw [getLast?_append_right hne]; exact hy1, hy2⟩

theorem parseExpTail_facts {l r : List Char} (h : parseExpTail l = some r) :
    ∃ c, l = c ++ r ∧ NumPiece c := by
  unfold parseExpTail at h
  dsimp only at h
  split at h
  · exact absurd h (by simp)
  · rename_i hz
    split at h
    · rename_i rr
      exact expCore ['+'] rr r (by decide) hz (Option.some.inj h)
    · rename_i rr
      exact expCore ['-'] rr r (by decide) hz (Option.some.inj h)
    · rename_i l2 hside1 hside2
      split at hz
      · rename_i rr
        exact absurd rfl (hside1 rr)
      · rename_i rr
        exact absurd rfl (hside2 rr)
      · exact expCore [] l r (by simp) hz (Option.some.inj h)

theorem parseNumberTail_facts {l r : List Char} (h : parseNumberTail l = some r) :
    ∃ c, l = c ++ r ∧ NumPiece c := by
  unfold parseNumberTail at h
  dsimp only at h
  split at h
  · exact absurd h (by simp)
  · rename_i r1 heq
    have hInt : ∃ ci, l = ci ++ r1 ∧ NumPiece ci := by
      split at heq
      · rename_i rr
        have hrr : rr = r1 := Option.some.inj heq
        refine ⟨['0'], ?_, by simp, by decide, '0', rfl, by decide⟩
        rw [hrr, List.cons_append, List.nil_append]
      · rename_i c2 rr hne0
        split at heq
        · rename_i h19
          have hr1 : rr.dropWhile isDigitCh = r1 := Option.some.inj heq
          have htw : rr = rr.takeWhile isDigitCh ++ rr.dropWhile isDigitCh :=
            (List.takeWhile_append_dropWhile isDigitCh rr).symm
          have hdig : isDigitCh c2 = true := by
            unfold isDigitCh
            exact decide_eq_true ⟨le_trans (by decide) h19.1, h19.2⟩
          refine ⟨c2 :: rr.takeWhile isDigitCh, ?_, ?_⟩
          · rw [List.cons_append, ← hr1, ← htw]
          · refine ⟨by simp, ?_, ?_⟩
            · intro x hx
              rcases List.mem_cons.mp hx with h1 | h1
              · subst h1
                exact digit_numCh hdig
              · exact digit_numCh (List.mem_takeWhile_imp h1)
            · by_cases hne : rr.takeWhile isDigitCh = []
              · exact ⟨c2, by rw [hne]; rfl, hdig⟩
              · obtain ⟨y, hy1, hy2⟩ := getLast?_all hne
                  (fun x hx => List.mem_takeWhile_imp hx)
                exact ⟨y, by rw [getLast?_cons_ne_nil hne]; exact hy1, hy2⟩
        · exact absurd heq (by simp)
      · exact absurd heq (by simp)
    obtain ⟨ci, hlci, hciP⟩ := hInt
    split at h
    · exact absurd h (by simp)
    · rename_i r2v heq2
      have hFrac : ∃ cf, r1 = cf ++ r2v ∧ (∀ x ∈ cf, numCh x = true) ∧
          (cf = [] ∨ NumPiece cf) := by
        split at heq2
        · rename_i rr2
          split at heq2
          · exact absurd heq2 (by simp)
          · rename_i hfz
            have hr2v : rr2.dropWhile isDigitCh = r2v := Option.some.inj heq2
            have htw : rr2 = rr2.takeWhile isDigitCh ++ rr2.dropWhile isDigitCh :=
              (List.takeWhile_append_dropWhile isDigitCh rr2).symm
            have hfne : rr2.takeWhile isDigitCh ≠ [] := fun hc => hfz (by rw [hc]; rfl)
            refine ⟨'.' :: rr2.takeWhile isDigitCh, ?_, ?_, Or.inr ?_⟩
            · rw [List.cons_append, ← hr2v, ← htw]
            · intro x hx
              rcases List.mem_cons.mp hx with h1 | h1
              · subst h1
                decide
              · exact digit_numCh (List.mem_takeWhile_imp h1)
            · refine ⟨by simp, ?_, ?_⟩
              · intro x hx
                rcases List.mem_cons.mp hx with h1 | h1
                · subst h1
                  decide
                · exact digit_numCh (List.mem_takeWhile_imp h1)
              · obtain ⟨y, hy1, hy2⟩ := getLast?_all hfne
                  (fun x hx => List.mem_takeWhile_imp hx)
                exact ⟨y, by rw [getLast?_cons_ne_nil hfne]; exact hy1, hy2⟩
        · have hr12 : r1 = r2v := Option.some.inj heq2
          exact ⟨[], by rw [hr12, List.nil_append], by simp, Or.inl rfl⟩
      obtain ⟨cf, hlcf, hcfall, hcfP⟩ := hFrac
      split at h
      · rename_i rr3
        obtain ⟨ce, hlce, hceP⟩ := parseExpTail_facts h
        have hec : NumPiece ('e' :: ce) := by
          obtain ⟨h1, h2, y, hy1, hy2⟩ := hceP
          refine ⟨by simp, ?_, y, ?_, hy2⟩
          · intro x hx
            rcases List.mem_cons.mp hx with hh | hh
            · subst hh
              decide
            · exact h2 x hh
          · rw [getLast?_cons_ne_nil h1]
            exact hy1
        refine ⟨ci ++ (cf ++ ('e' :: ce)), ?_, ?_⟩
        · rw [hlci, hlcf, hlce]
          simp only [List.append_assoc, List.cons_append]
        · exact NumPiece_extend hciP.2.1 (NumPiece_extend hcfall hec)
      · rename_i rr3
        obtain ⟨ce, hlce, hceP⟩ := parseExpTail_facts h
        have hec : NumPiece ('E' :: ce) := by
          obtain ⟨h1, h2, y, hy1, hy2⟩ := hceP
          refine ⟨by simp, ?_, y, ?_, hy2⟩
          · intro x hx
            rcases List.mem_cons.mp hx with hh | hh
            · subst hh
              decide
            · exact h2 x hh
          · rw [getLast?_cons_ne_nil h1]
            exact hy1
        refine ⟨ci ++ (cf ++ ('E' :: ce)), ?_, ?_⟩
        · rw [hlci, hlcf, hlce]
          simp only [List.append_assoc, List.cons_append]
        · exact NumPiece_extend hciP.2.1 (NumPiece_extend hcfall hec)
      · have hr : r2v = r := Option.some.inj h
        refine ⟨ci ++ cf, ?_, ?_⟩
        · rw [hlci, hlcf, hr, List.append_assoc]
        · rcases hcfP with hcf0 | hcfP2
          · subst hcf0
            rw [List.append_nil]
            exact hciP
          · exact NumPiece_extend hciP.2.1 hcfP2

/-! ### Glue lemmas for the structural parser induction -/

theorem scanU_ws (X : List Char) (d : Nat) :
    scanU ⟨false, false, d⟩ (X.takeWhile isJsonWs) = ⟨false, false, d⟩ :=
  scanU_plain (fun _ hx => isJsonWs_scanPlain (List.mem_takeWhile_imp hx)) d

theorem TCok_ws (X : List Char) : TCok (X.takeWhile isJsonWs) :=
  TCok_plain (fun _ hx => ws_not_qc (List.mem_takeWhile_imp hx))

theorem ws_split (X : List Char) :
    X = X.takeWhile isJsonWs ++ X.dropWhile isJsonWs :=
  (List.takeWhile_append_dropWhile isJsonWs X).symm

theorem TCok_single {c : Char} (h1 : ¬c = '"') (h2 : ¬c = ',') : TCok [c] :=
  TCok_plain (by
    intro x hx
    rw [List.mem_singleton] at hx
    subst hx
    exact fun hc => hc.elim h1 h2)

theorem headStarter_cons {s : Char} (t : List Char) (h1 : isJsonWs s = false)
    (h2 : ¬s = '}') (h3 : ¬s = ']') : headStarter (s :: t) :=
  ⟨s, t, rfl, h1, h2, h3⟩

theorem headStarter_append {a : List Char} (x : List Char) (h : headStarter a) :
    headStarter (a ++ x) := by
  obtain ⟨s, t0, heq, h1, h2, h3⟩ := h
  subst heq
  exact ⟨s, t0 ++ x, by rw [List.cons_append], h1, h2, h3⟩

theorem scanUStep_quote_in (d : Nat) :
    scanUStep ⟨false, false, d⟩ '"' = ⟨true, false, d⟩ := rfl

theorem scanUStep_obrace (d : Nat) :
    scanUStep ⟨false, false, d⟩ '{' = ⟨false, false, d + 1⟩ := rfl

theorem scanUStep_obrack (d : Nat) :
    scanUStep ⟨false, false, d⟩ '[' = ⟨false, false, d + 1⟩ := rfl

theorem scanUStep_colon (d : Nat) :
    scanUStep ⟨false, false, d⟩ ':' = ⟨false, false, d⟩ := rfl

theorem scanUStep_comma (d : Nat) :
    scanUStep ⟨false, false, d⟩ ',' = ⟨false, false, d⟩ := rfl

theorem scanU_cbrace (d : Nat) :
    scanU ⟨false, false, d + 1⟩ ['}'] = ⟨false, false, d⟩ := rfl

theorem scanU_cbrack (d : Nat) :
    scanU ⟨false, false, d + 1⟩ [']'] = ⟨false, false, d⟩ := rfl


/-! ### The consumed-prefix induction over the strict parser -/

theorem parser_facts (fuel : Nat) :
    (∀ l r, parseValue fuel l = some r → ∃ c, l = c ++ r ∧ ValueFacts c) ∧
    (∀ l r, parseMembers fuel l = some r → ∃ c, l = c ++ r ∧ MembersFacts c) ∧
    (∀ l r, parseElements fuel l = some r → ∃ c, l = c ++ r ∧ ElementsFacts c) := by
  induction fuel with
  | zero =>
    refine ⟨?_, ?_, ?_⟩ <;> intro l r h
    · simp [parseValue] at h
    · simp [parseMembers] at h
    · simp [parseElements] at h
  | succ f ih =>
    obtain ⟨ihV, ihM, ihE⟩ := ih
    refine ⟨?_, ?_, ?_⟩
    · intro l r h
      cases l with
      | nil =>
        unfold parseValue at h
        dsimp only at h
        exact absurd h (by simp)
      | cons c0 rest =>
        unfold parseValue at h
        dsimp only at h
        by_cases hq : c0 = '"'
        · rw [if_pos hq] at h
          subst hq
          obtain ⟨bc, hbsplit, hbne, hbscan, hbtc, hblast, hbruns⟩ :=
            parseStringBody_facts (rest.length + 1) rest r h
          refine ⟨'"' :: bc, ?_, ?_⟩
          · rw [hbsplit, List.cons_append]
          · refine ⟨by simp, ?_, TCok_string hbtc,
              headStarter_cons bc (by decide) (by decide) (by decide), ?_⟩
            · intro d
              rw [scanU_cons, scanUStep_quote_in]
              exact hbscan d
            · refine ⟨'"', ?_, by decide, by decide, by decide, fun _ => ?_⟩
              · rw [getLast?_cons_ne_nil hbne]
                exact hblast
              · refine ⟨?_, rfl, ?_, ?_⟩
                · rw [List.length_cons]
                  have hpos := List.length_pos.mpr hbne
                  omega
                · rw [getLast?_cons_ne_nil hbne]
                  exact hblast
                · intro p hp hplen hpq
                  cases p with
                  | zero => exact absurd hp (by omega)
                  | succ k =>
                    have hk : k + 1 < bc.length := by
                      rw [List.length_cons] at hplen
                      omega
                    have hq2 : bc.get? k = some '"' := hpq
                    have h1 := backslashRun_append ['"'] bc k '"' (by rfl) (by decide)
                    have hlen1 : (['"'] : List Char).length + k = k + 1 := by
                      simp only [List.length_cons, List.length_nil]
                      omega
                    rw [hlen1] at h1
                    show backslashRun (['"'] ++ bc) (k + 1) % 2 = 1
                    rw [h1]
                    exact hbruns k hk hq2
        · by_cases hob : c0 = '{'
          · rw [if_neg hq, if_pos hob] at h
            subst hob
            split at h
            · rename_i r0 heq
              have hr0 : r0 = r := Option.some.inj h
              subst hr0
              refine ⟨'{' :: (rest.takeWhile isJsonWs ++ ['}']), ?_, ?_⟩
              · conv_lhs => rw [ws_split rest, heq]
                simp only [List.cons_append, List.append_assoc, List.nil_append]
              · refine ⟨by simp, ?_, ?_,
                  headStarter_cons _ (by decide) (by decide) (by decide), ?_⟩
                · intro d
                  rw [scanU_cons, scanUStep_obrace, scanU_append, scanU_ws, scanU_cbrace]
                · exact TCok_plain (by
                    intro x hx
                    rcases List.mem_cons.mp hx with h1 | h1
                    · subst h1
                      decide
                    · rcases List.mem_append.mp h1 with h2 | h2
                      · exact ws_not_qc (List.mem_takeWhile_imp h2)
                      · rw [List.mem_singleton] at h2
                        subst h2
                        decide)
                · refine ⟨'}', ?_, by decide, by decide, by decide,
                    fun hcon => absurd hcon (by decide)⟩
                  rw [getLast?_cons_ne_nil (append_ne_nil_r (by simp)),
                    getLast?_append_right (by simp)]
                  rfl
            · obtain ⟨cm, hmsplit, hmne, hmscan, hmtc, hmhead, hmlast⟩ := ihM _ _ h
              refine ⟨'{' :: (rest.takeWhile isJsonWs ++ cm), ?_, ?_⟩
              · conv_lhs => rw [ws_split rest, hmsplit]
                simp only [List.cons_append, List.append_assoc]
              · refine ⟨by simp, ?_, ?_,
                  headStarter_cons _ (by decide) (by decide) (by decide), ?_⟩
                · intro d
                  rw [scanU_cons, scanUStep_obrace, scanU_append, scanU_ws]
                  exact hmscan d
                · exact TCok_append (TCok_single (by decide) (by decide))
                    (TCok_append (TCok_ws rest) hmtc)
                · refine ⟨'}', ?_, by decide, by decide, by decide,
                    fun hcon => absurd hcon (by decide)⟩
                  rw [getLast?_cons_ne_nil (append_ne_nil_r hmne),
                    getLast?_append_right hmne]
                  exact hmlast
          · by_cases hok : c0 = '['
            · rw [if_neg hq, if_neg hob, if_pos hok] at h
              subst hok
              split at h
              · rename_i r0 heq
                have hr0 : r0 = r := Option.some.inj h
                subst hr0
                refine ⟨'[' :: (rest.takeWhile isJsonWs ++ [']']), ?_, ?_⟩
                · conv_lhs => rw [ws_split rest, heq]
                  simp only [List.cons_append, List.append_assoc, List.nil_append]
                · refine ⟨by simp, ?_, ?_,
                    headStarter_cons _ (by decide) (by decide) (by decide), ?_⟩
                  · intro d
                    rw [scanU_cons, scanUStep_obrack, scanU_append, scanU_ws, scanU_cbrack]
                  · exact TCok_plain (by
                      intro x hx
                      rcases List.mem_cons.mp hx with h1 | h1
                      · subst h1
                        decide
                      · rcases List.mem_append.mp h1 with h2 | h2
                        · exact ws_not_qc (List.mem_takeWhile_imp h2)
                        · rw [List.mem_singleton] at h2
                          subst h2
                          decide)
                  · refine ⟨']', ?_, by decide, by decide, by decide,
                      fun hcon => absurd hcon (by decide)⟩
                    rw [getLast?_cons_ne_nil (append_ne_nil_r (by simp)),
                      getLast?_append_right (by simp)]
                    rfl
              · obtain ⟨ce, hesplit, hene, hescan, hetc, hehead, helast⟩ := ihE _ _ h
                refine ⟨'[' :: (rest.takeWhile isJsonWs ++ ce), ?_, ?_⟩
                · conv_lhs => rw [ws_split rest, hesplit]
                  simp only [List.cons_append, List.append_assoc]
                · refine ⟨by simp, ?_, ?_,
                    headStarter_cons _ (by decide) (by decide) (by decide), ?_⟩
                  · intro d
                    rw [scanU_cons, scanUStep_obrack, scanU_append, scanU_ws]
                    exact hescan d
                  · exact TCok_append (TCok_single (by decide) (by decide))
                      (TCok_append (TCok_ws rest) hetc)
                  · refine ⟨']', ?_, by decide, by decide, by decide,
                      fun hcon => absurd hcon (by decide)⟩
                    rw [getLast?_cons_ne_nil (append_ne_nil_r hene),
                      getLast?_append_right hene]
                    exact helast
            · by_cases htl : c0 = 't'
              · rw [if_neg hq, if_neg hob, if_neg hok, if_pos htl] at h
                subst htl
                split at h
                · rename_i r0 heq
                  have hr0 : r0 = r := Option.some.inj h
                  injection heq with heq0 heq1
                  refine ⟨['t', 'r', 'u', 'e'], ?_, by simp,
                    fun d => scanU_plain (by decide) d, TCok_plain (by decide),
                    headStarter_cons _ (by decide) (by decide) (by decide),
                    'e', rfl, by decide, by decide, by decide,
                    fun hcon => absurd hcon (by decide)⟩
                  rw [heq1, hr0]
                  simp only [List.cons_append, List.nil_append]
                · exact absurd h (by simp)
              · by_cases hfl : c0 = 'f'
                · rw [if_neg hq, if_neg hob, if_neg hok, if_neg htl, if_pos hfl] at h
                  subst hfl
                  split at h
                  · rename_i r0 heq
                    have hr0 : r0 = r := Option.some.inj h
                    injection heq with heq0 heq1
                    refine ⟨['f', 'a', 'l', 's', 'e'], ?_, by simp,
                      fun d => scanU_plain (by decide) d, TCok_plain (by decide),
                      headStarter_cons _ (by decide) (by decide) (by decide),
                      'e', rfl, by decide, by decide, by decide,
                      fun hcon => absurd hcon (by decide)⟩
                    rw [heq1, hr0]
                    simp only [List.cons_append, List.nil_append]
                  · exact absurd h (by simp)
                · by_cases hnl : c0 = 'n'
                  · rw [if_neg hq, if_neg hob, if_neg hok, if_neg htl, if_neg hfl,
                      if_pos hnl] at h
                    subst hnl
                    split at h
                    · rename_i r0 heq
                      have hr0 : r0 = r := Option.some.inj h
                      injection heq with heq0 heq1
                      refine ⟨['n', 'u', 'l', 'l'], ?_, by simp,
                        fun d => scanU_plain (by decide) d, TCok_plain (by decide),
                        headStarter_cons _ (by decide) (by decide) (by decide),
                        'l', rfl, by decide, by decide, by decide,
                        fun hcon => absurd hcon (by decide)⟩
                      rw [heq1, hr0]
                      simp only [List.cons_append, List.nil_append]
                    · exact absurd h (by simp)
                  · by_cases hmn : c0 = '-'
                    · rw [if_neg hq, if_neg hob, if_neg hok, if_neg htl, if_neg hfl,
                        if_neg hnl, if_pos hmn] at h
                      subst hmn
                      obtain ⟨cn, hnsplit, hnne, hnall, y, hylast, hydig⟩ :=
                        parseNumberTail_facts h
                      refine ⟨'-' :: cn, ?_, ?_⟩
                      · rw [hnsplit, List.cons_append]
                      · refine ⟨by simp, ?_, ?_,
                          headStarter_cons _ (by decide) (by decide) (by decide), ?_⟩
                        · intro d
                          apply scanU_plain
                          intro x hx
                          rcases List.mem_cons.mp hx with h1 | h1
                          · subst h1
                            decide
                          · exact numCh_scanPlain (hnall x h1)
                        · exact TCok_plain (by
                            intro x hx
                            rcases List.mem_cons.mp hx with h1 | h1
                            · subst h1
                              decide
                            · exact numCh_not_qc (hnall x h1))
                        · obtain ⟨hws, hcm2, hco, hqn⟩ := isDigitCh_props hydig
                          refine ⟨y, ?_, hws, hcm2, hco, fun hcon => absurd hcon hqn⟩
                          rw [getLast?_cons_ne_nil hnne]
                          exact hylast
                    · by_cases hdg : isDigitCh c0 = true
                      · rw [if_neg hq, if_neg hob, if_neg hok, if_neg htl, if_neg hfl,
                          if_neg hnl, if_neg hmn, if_pos hdg] at h
                        obtain ⟨cn, hnsplit, hnne, hnall, y, hylast, hydig⟩ :=
                          parseNumberTail_facts h
                        cases cn with
                        | nil => exact absurd rfl hnne
                        | cons a cn2 =>
                          refine ⟨a :: cn2, hnsplit, by simp,
                            fun d => scanU_plain
                              (fun x hx => numCh_scanPlain (hnall x hx)) d,
                            TCok_plain (fun x hx => numCh_not_qc (hnall x hx)),
                            ?_, ?_⟩
                          · have hna : numCh a = true := hnall a (by simp)
                            exact headStarter_cons cn2 (numCh_not_ws hna)
                              (numCh_not_closer hna).1 (numCh_not_closer hna).2
                          · obtain ⟨hws, hcm2, hco, hqn⟩ := isDigitCh_props hydig
                            exact ⟨y, hylast, hws, hcm2, hco,
                              fun hcon => absurd hcon hqn⟩
                      · rw [if_neg hq, if_neg hob, if_neg hok, if_neg htl, if_neg hfl,
                          if_neg hnl, if_neg hmn, if_neg hdg] at h
                        exact absurd h (by simp)
    · intro l r h
      unfold parseMembers at h
      split at h
      · rename_i rest
        split at h
        · exact absurd h (by simp)
        · rename_i r1 hsb
          obtain ⟨bc, hbsplit, hbne, hbscan, hbtc, hblast, hbruns⟩ :=
            parseStringBody_facts (rest.length + 1) rest r1 hsb
          split at h
          · rename_i r2 hcol
            split at h
            · exact absurd h (by simp)
            · rename_i r3 hpv
              obtain ⟨cv, hvsplit, hvne, hvscan, hvtc, hvhead, hvlast⟩ := ihV _ _ hpv
              split at h
              · rename_i r4 hcm
                obtain ⟨cm2, hmsplit, hm2ne, hm2scan, hm2tc, hm2head, hm2last⟩ :=
                  ihM _ _ h
                refine ⟨'"' :: (bc ++ (r1.takeWhile isJsonWs ++ (':' ::
                  (r2.takeWhile isJsonWs ++ (cv ++ (r3.takeWhile isJsonWs ++ (',' ::
                  (r4.takeWhile isJsonWs ++ cm2)))))))), ?_, ?_⟩
                · conv_lhs => rw [hbsplit, ws_split r1, hcol, ws_split r2, hvsplit,
                    ws_split r3, hcm, ws_split r4, hmsplit]
                  simp only [List.cons_append, List.append_assoc]
                · have hH : (r4.takeWhile isJsonWs ++ cm2) ≠ [] := append_ne_nil_r hm2ne
                  have hG : (',' :: (r4.takeWhile isJsonWs ++ cm2)) ≠ [] := by simp
                  have hF : (r3.takeWhile isJsonWs ++ (',' ::
                      (r4.takeWhile isJsonWs ++ cm2))) ≠ [] := append_ne_nil_r hG
                  have hE : (cv ++ (r3.takeWhile isJsonWs ++ (',' ::
                      (r4.takeWhile isJsonWs ++ cm2)))) ≠ [] := append_ne_nil_r hF
                  have hD : (r2.takeWhile isJsonWs ++ (cv ++ (r3.takeWhile isJsonWs ++
                      (',' :: (r4.takeWhile isJsonWs ++ cm2))))) ≠ [] :=
                    append_ne_nil_r hE
                  have hC : (':' :: (r2.takeWhile isJsonWs ++ (cv ++
                      (r3.takeWhile isJsonWs ++ (',' ::
                      (r4.takeWhile isJsonWs ++ cm2)))))) ≠ [] := by simp
                  have hB : (r1.takeWhile isJsonWs ++ (':' ::
                      (r2.takeWhile isJsonWs ++ (cv ++ (r3.takeWhile isJsonWs ++
                      (',' :: (r4.takeWhile isJsonWs ++ cm2))))))) ≠ [] :=
                    append_ne_nil_r hC
                  have hA : (bc ++ (r1.takeWhile isJsonWs ++ (':' ::
                      (r2.takeWhile isJsonWs ++ (cv ++ (r3.takeWhile isJsonWs ++
                      (',' :: (r4.takeWhile isJsonWs ++ cm2)))))))) ≠ [] :=
                    append_ne_nil_r hB
                  refine ⟨by simp, ?_, ?_,
                    headStarter_cons _ (by decide) (by decide) (by decide), ?_⟩
                  · intro d
                    rw [scanU_cons, scanUStep_quote_in, scanU_append, hbscan,
                      scanU_append, scanU_ws, scanU_cons, scanUStep_colon,
                      scanU_append, scanU_ws, scanU_append, hvscan, scanU_append,
                      scanU_ws, scanU_cons, scanUStep_comma, scanU_append, scanU_ws]
                    exact hm2scan d
                  · exact TCok_append (TCok_string hbtc) (TCok_append (TCok_ws r1)
                      (TCok_append (TCok_single (by decide) (by decide))
                      (TCok_append (TCok_ws r2) (TCok_append hvtc
                      (TCok_append (TCok_ws r3)
                      (TCok_comma (r4.takeWhile isJsonWs) cm2 (takeWhile_ws_all r4)
                        hm2tc hm2head))))))
                  · rw [getLast?_cons_ne_nil hA, getLast?_append_right hB,
                      getLast?_append_right hC, getLast?_cons_ne_nil hD,
                      getLast?_append_right hE, getLast?_append_right hF,
                      getLast?_append_right hG, getLast?_cons_ne_nil hH,
                      getLast?_append_right hm2ne]
                    exact hm2last
              · rename_i r4 hcb
                have hr4 : r4 = r := Option.some.inj h
                subst hr4
                refine ⟨'"' :: (bc ++ (r1.takeWhile isJsonWs ++ (':' ::
                  (r2.takeWhile isJsonWs ++ (cv ++ (r3.takeWhile isJsonWs ++
                  ['}'])))))), ?_, ?_⟩
                · conv_lhs => rw [hbsplit, ws_split r1, hcol, ws_split r2, hvsplit,
                    ws_split r3, hcb]
                  simp only [List.cons_append, List.append_assoc, List.nil_append]
                · have hF : (r3.takeWhile isJsonWs ++ ['}']) ≠ [] :=
                    append_ne_nil_r (by simp)
                  have hE : (cv ++ (r3.takeWhile isJsonWs ++ ['}'])) ≠ [] :=
                    append_ne_nil_r hF
                  have hD : (r2.takeWhile isJsonWs ++ (cv ++
                      (r3.takeWhile isJsonWs ++ ['}']))) ≠ [] := append_ne_nil_r hE
                  have hC : (':' :: (r2.takeWhile isJsonWs ++ (cv ++
                      (r3.takeWhile isJsonWs ++ ['}'])))) ≠ [] := by simp
                  have hB : (r1.takeWhile isJsonWs ++ (':' ::
                      (r2.takeWhile isJsonWs ++ (cv ++ (r3.takeWhile isJsonWs ++
                      ['}']))))) ≠ [] := append_ne_nil_r hC
                  have hA : (bc ++ (r1.takeWhile isJsonWs ++ (':' ::
                      (r2.takeWhile isJsonWs ++ (cv ++ (r3.takeWhile isJsonWs ++
                      ['}'])))))) ≠ [] := append_ne_nil_r hB
                  refine ⟨by simp, ?_, ?_,
                    headStarter_cons _ (by decide) (by decide) (by decide), ?_⟩
                  · intro d
                    rw [scanU_cons, scanUStep_quote_in, scanU_append, hbscan,
                      scanU_append, scanU_ws, scanU_cons, scanUStep_colon,
                      scanU_append, scanU_ws, scanU_append, hvscan, scanU_append,
                      scanU_ws, scanU_cbrace]
                  · exact TCok_append (TCok_string hbtc) (TCok_append (TCok_ws r1)
                      (TCok_append (TCok_single (by decide) (by decide))
                      (TCok_append (TCok_ws r2) (TCok_append hvtc
                      (TCok_append (TCok_ws r3)
                      (TCok_single (by decide) (by decide)))))))
                  · rw [getLast?_cons_ne_nil hA, getLast?_append_right hB,
                      getLast?_append_right hC, getLast?_cons_ne_nil hD,
                      getLast?_append_right hE, getLast?_append_right hF,
                      getLast?_append_right (by simp)]
                    rfl
              · exact absurd h (by simp)
          · exact absurd h (by simp)
      · exact absurd h (by simp)
    · intro l r h
      unfold parseElements at h
      split at h
      · exact absurd h (by simp)
      · rename_i r1 hpv
        obtain ⟨cv, hvsplit, hvne, hvscan, hvtc, hvhead, hvlast⟩ := ihV _ _ hpv
        split at h
        · rename_i r2 hcm
          obtain ⟨ce2, hesplit, hene, hescan, hetc, hehead, helast⟩ := ihE _ _ h
          refine ⟨cv ++ (r1.takeWhile isJsonWs ++ (',' ::
            (r2.takeWhile isJsonWs ++ ce2))), ?_, ?_⟩
          · conv_lhs => rw [hvsplit, ws_split r1, hcm, ws_split r2, hesplit]
            simp only [List.cons_append, List.append_assoc]
          · have hH : (r2.takeWhile isJsonWs ++ ce2) ≠ [] := append_ne_nil_r hene
            have hG : (',' :: (r2.takeWhile isJsonWs ++ ce2)) ≠ [] := by simp
            have hF : (r1.takeWhile isJsonWs ++ (',' ::
                (r2.takeWhile isJsonWs ++ ce2))) ≠ [] := append_ne_nil_r hG
            refine ⟨?_, ?_, ?_, headStarter_append _ hvhead, ?_⟩
            · intro hc
              exact hvne (List.append_eq_nil.mp hc).1
            · intro d
              rw [scanU_append, hvscan, scanU_append, scanU_ws, scanU_cons,
                scanUStep_comma, scanU_append, scanU_ws]
              exact hescan d
            · exact TCok_append hvtc (TCok_append (TCok_ws r1)
                (TCok_comma (r2.takeWhile isJsonWs) ce2 (takeWhile_ws_all r2)
                  hetc hehead))
            · rw [getLast?_append_right hF, getLast?_append_right hG,
                getLast?_cons_ne_nil hH, getLast?_append_right hene]
              exact helast
        · rename_i r2 hcb
          have hr2 : r2 = r := Option.some.inj h
          subst hr2
          refine ⟨cv ++ (r1.takeWhile isJsonWs ++ [']']), ?_, ?_⟩
          · conv_lhs => rw [hvsplit, ws_split r1, hcb]
            simp only [List.cons_append, List.append_assoc, List.nil_append]
          · refine ⟨?_, ?_, ?_, headStarter_append _ hvhead, ?_⟩
            · intro hc
              exact hvne (List.append_eq_nil.mp hc).1
            · intro d
              rw [scanU_append, hvscan, scanU_append, scanU_ws, scanU_cbrack]
            · exact TCok_append hvtc (TCok_append (TCok_ws r1)
                (TCok_single (by decide) (by decide)))
            · rw [getLast?_append_right (append_ne_nil_r (by simp)),
                getLast?_append_right (by simp)]
              rfl
        · exact absurd h (by simp)



/-! ### C6 assembly -/

theorem effMax_le (max_depth : Int) :
    (if (if max_depth < 1 then (1 : Int) else max_depth) < 256
      then (if max_depth < 1 then (1 : Int) else max_depth).toNat else 256) ≤ 256 := by
  by_cases h1 : max_depth < 1
  · rw [if_pos h1, if_pos (by norm_num)]
    norm_num
  · rw [if_neg h1]
    by_cases h2 : max_depth < 256
    · rw [if_pos h2]
      omega
    · rw [if_neg h2]

/-- C6: on input that is already syntactically valid JSON (the strict
grammar admits no trailing commas), with an output buffer large enough
for the input plus the worst-case closer reservation, `conduit_json_repair`
returns exactly the input trimmed of leading and trailing whitespace,
with that trimmed length as the return value: repair is the identity on
already-valid inputs. -/
theorem json_repair_identity_on_valid (input : List Char) (output_capacity : Nat)
    (max_depth : Int) (hvalid : jsonValidList input = true)
    (hcap : input.length + 259 ≤ output_capacity) :
    conduit_json_repair input output_capacity max_depth =
      (Int.ofNat (trim_trailing_whitespace (input.dropWhile isJsonWs)).length,
        trim_trailing_whitespace (input.dropWhile isJsonWs)) := by
  unfold jsonValidList at hvalid
  split at hvalid
  · rename_i r0 hpv
    obtain ⟨c, htsplit, hcne, hcscan, hctc, hchead, hclast⟩ :=
      (parser_facts (2 * input.length + 2)).1 _ _ hpv
    obtain ⟨x, hxlast, hxws, hxcomma, hxcolon, hxstr⟩ := hclast
    have hdw0 : r0.dropWhile isJsonWs = [] := List.isEmpty_iff.mp hvalid
    have hrws : ∀ y ∈ r0, isJsonWs y = true := List.dropWhile_eq_nil_iff.mp hdw0
    have hclen : c.length ≤ input.length := by
      have h1 : (input.dropWhile isJsonWs).length ≤ input.length :=
        (List.dropWhile_sublist isJsonWs).length_le
      rw [htsplit, List.length_append] at h1
      omega
    have heff := effMax_le max_depth
    have h0len : ¬(input.dropWhile isJsonWs).length = 0 := by
      rw [htsplit, List.length_append]
      have h2 := List.length_pos.mpr hcne
      omega
    have hscanfull : scanU ⟨false, false, 0⟩ (input.dropWhile isJsonWs) =
        ⟨false, false, 0⟩ := by
      rw [htsplit, scanU_append, hcscan 0]
      exact scanU_plain (fun y hy => isJsonWs_scanPlain (hrws y hy)) 0
    have hcmp := phaseA_le_scanU
      (if (if max_depth < 1 then (1 : Int) else max_depth) < 256
        then (if max_depth < 1 then (1 : Int) else max_depth).toNat else 256)
      (input.dropWhile isJsonWs) scanInit ⟨false, false, 0⟩ rfl rfl
      (by simp [scanInit])
    rw [hscanfull] at hcmp
    obtain ⟨hin, hesc2, hlen0⟩ := hcmp
    have hin2 : ((input.dropWhile isJsonWs).foldl (phaseAStep
        (if (if max_depth < 1 then (1 : Int) else max_depth) < 256
          then (if max_depth < 1 then (1 : Int) else max_depth).toNat else 256))
        scanInit).inStr = false := hin
    have hstack : ((input.dropWhile isJsonWs).foldl (phaseAStep
        (if (if max_depth < 1 then (1 : Int) else max_depth) < 256
          then (if max_depth < 1 then (1 : Int) else max_depth).toNat else 256))
        scanInit).stack = [] := by
      apply List.length_eq_zero.mp
      exact Nat.le_zero.mp hlen0
    have htrim : trim_trailing_whitespace (input.dropWhile isJsonWs) = c := by
      rw [htsplit, trim_append_ws hrws]
      exact trim_id hxlast hxws
    have hb3 : ¬(c.getLast? = some ',') := by
      rw [hxlast]
      simp [hxcomma]
    have hkvp : remove_incomplete_kvp c = c := by
      by_cases hxq : x = '"'
      · subst hxq
        exact kvp_id_strlit (hxstr rfl)
      · exact kvp_id_nonquote hxlast hxws hxcomma hxcolon hxq
    have htc : removeTCGo output_capacity 0 false false c = c := by
      have h1 := hctc output_capacity 0 [] (by omega)
      have h2 : removeTCGo output_capacity (0 + c.length) false false [] = [] := rfl
      rw [h2, List.append_nil] at h1
      exact h1
    have htake : (input.dropWhile isJsonWs).take (output_capacity -
        ((if (if max_depth < 1 then (1 : Int) else max_depth) < 256
          then (if max_depth < 1 then (1 : Int) else max_depth).toNat else 256) + 2)) =
        input.dropWhile isJsonWs := by
      apply List.take_all_of_le
      have h1 : (input.dropWhile isJsonWs).length ≤ input.length :=
        (List.dropWhile_sublist isJsonWs).length_le
      omega
    unfold conduit_json_repair
    dsimp only
    rw [if_neg (by omega : ¬output_capacity < 3)]
    rw [if_neg h0len]
    rw [if_neg (by omega : ¬output_capacity ≤
      (if (if max_depth < 1 then (1 : Int) else max_depth) < 256
        then (if max_depth < 1 then (1 : Int) else max_depth).toNat else 256) + 2)]
    rw [htake]
    rw [hin2]
    simp only [Bool.false_eq_true, if_false]
    rw [htrim]
    rw [if_neg hb3]
    rw [hkvp]
    rw [hstack, List.reverse_nil]
    rw [show appendClosersGo output_capacity [] c = c from rfl]
    rw [show remove_trailing_commas c output_capacity =
      removeTCGo output_capacity 0 false false c from rfl]
    rw [htc]
  · exact absurd hvalid (by simp)

theorem json_repair_identity_on_valid_witness :
    jsonValidList ['{', '"', 'a', '"', ':', '1', '}'] = true ∧
    conduit_json_repair ['{', '"', 'a', '"', ':', '1', '}'] 300 64 =
      (Int.ofNat 7, ['{', '"', 'a', '"', ':', '1', '}']) := by
  refine ⟨by decide, ?_⟩
  have h := json_repair_identity_on_valid ['{', '"', 'a', '"', ':', '1', '}'] 300 64
    (by decide) (by decide)
  rw [h]
  rfl


end Conduit